import Mathlib

/-
Verification of the reth-proof-metrics log-analysis engine.

The two Python scripts are shallowly embedded here.  Log lines are modelled
as already-parsed events (the regex pattern families of the Event Extractor
become constructors); timestamps are naturals counting microseconds, so the
fixed-width ISO-8601 timestamp strings of the source sort exactly like these
numbers and datetime arithmetic becomes exact integer arithmetic.  Python
dicts keyed by timestamp strings become association lists with the same
insert-or-overwrite-in-place semantics, and Python's stable list sort is
mirrored by a stable insertion sort on the key.  Durations and hashes are
carried through opaquely as naturals.
-/

namespace RethProofMetrics

/-! ### Generic helpers: absolute difference, stable sort by key,
    buckets and association lists with Python-dict semantics -/

/-- Absolute difference of two naturals, standing for the
`abs((t1 - t2).total_seconds())` computations of the source. -/
def absDiff (a b : Nat) : Nat := max a b - min a b

/-- Insert an element into a list sorted by `key`, before the first
strictly larger key, hence after all equal keys: the insertion step of a
stable ascending sort. -/
def insSorted {α : Type} (key : α → Nat) (a : α) : List α → List α
  | [] => [a]
  | b :: bs => if key a ≤ key b then a :: b :: bs else b :: insSorted key a bs

/-- Stable ascending sort by `key`: the model of Python's
`list.sort(key=...)`, which is stable. -/
def sortByKey {α : Type} (key : α → Nat) : List α → List α
  | [] => []
  | a :: as => insSorted key a (sortByKey key as)

/-- Append a value at the end of the bucket for `k`, creating the bucket at
the end when absent: the model of `dict.setdefault(k, []).append(v)`. -/
def bucketAdd {α : Type} (k : Nat) (v : α) : List (Nat × List α) → List (Nat × List α)
  | [] => [(k, [v])]
  | (m, vs) :: rest =>
      if m = k then (m, vs ++ [v]) :: rest else (m, vs) :: bucketAdd k v rest

/-- Look up the bucket of `k` (empty list when absent). -/
def lookupBucket {α : Type} (k : Nat) : List (Nat × List α) → List α
  | [] => []
  | (m, vs) :: rest => if m = k then vs else lookupBucket k rest

/-- Apply `f` to the bucket of `k`, leaving the list unchanged when the key
is absent: models `if k in d: mutate d[k]`. -/
def mapBucket {α : Type} (k : Nat) (f : List α → List α) :
    List (Nat × List α) → List (Nat × List α) :=
  List.map fun p => if p.1 = k then (p.1, f p.2) else p

/-- Python-dict insertion on an association list: an existing key is
overwritten in place, a fresh key is appended at the end. -/
def insertAssoc {κ α : Type} [DecidableEq κ] (m : List (κ × α)) (k : κ) (v : α) :
    List (κ × α) :=
  match m with
  | [] => [(k, v)]
  | (k', v') :: rest => if k' = k then (k, v) :: rest else (k', v') :: insertAssoc rest k v

/-- Replace the element at position `i` by `f` of it (identity out of range). -/
def modifyAt {α : Type} : Nat → (α → α) → List α → List α
  | _, _, [] => []
  | 0, f, a :: as => f a :: as
  | n + 1, f, a :: as => a :: modifyAt n f as

/-! ### proof-metrics.py: boundary reconstruction and block statistics -/

/-- One heuristic block window `(index, start_timestamp, end_timestamp)`
produced by `calculate_block_boundaries`. -/
structure BlockWindow where
  idx : Nat
  startTs : Nat
  endTs : Nat
deriving DecidableEq

/-- The loop of `calculate_block_boundaries`: walking the counter samples
`(timestamp, proofs_processed)`, a reset (counter strictly below half the
previous sample, or exactly zero) closes the current window at the previous
sample; after the loop the trailing window is emitted only when its start
differs from the last timestamp.  `2 * p < prevP` is the integer reading of
the source's `proofs_processed[i] < proofs_processed[i-1] * 0.5`, exact
because multiplying an integer counter by the float `0.5` is exact. -/
def boundariesLoop (acc : List BlockWindow) (curStart prevT prevP : Nat) :
    List (Nat × Nat) → List BlockWindow
  | [] => if curStart ≠ prevT then acc ++ [⟨acc.length, curStart, prevT⟩] else acc
  | (t, p) :: rest =>
      if 2 * p < prevP ∨ p = 0 then
        boundariesLoop (acc ++ [⟨acc.length, curStart, prevT⟩]) t t p rest
      else
        boundariesLoop acc curStart t p rest

/-- `calculate_block_boundaries` restricted to its core: from the parsed
`(timestamp, proofs_processed)` samples to the list of block windows. -/
def calculate_block_boundaries (samples : List (Nat × Nat)) : List BlockWindow :=
  match samples with
  | [] => []
  | (t, p) :: rest => boundariesLoop [] t t p rest

/-- The last sample of the stream does not itself trigger a reset, reading
the stream as (proofs value of the previous sample, remaining samples). -/
def lastNoReset (prevP : Nat) : List (Nat × Nat) → Prop
  | [] => True
  | [(_, p)] => ¬ (2 * p < prevP ∨ p = 0)
  | (_, p) :: rest => lastNoReset p rest

/-- `lastNoReset` lifted to a full sample list. -/
def lastSampleNoReset : List (Nat × Nat) → Prop
  | [] => True
  | (_, p) :: rest => lastNoReset p rest

/-- The timestamps at which `boundariesLoop` closes a window, read off the
loop: each reset closes the running window at the previous sample's
timestamp, and the trailing window closes at the last timestamp unless its
start equals it. -/
def closePts (cs pt pp : Nat) : List (Nat × Nat) → List Nat
  | [] => if cs ≠ pt then [pt] else []
  | (t, p) :: rest =>
      if 2 * p < pp ∨ p = 0 then pt :: closePts t t p rest
      else closePts cs t p rest

/-- The statistics record returned by `calculate_block_statistics`. -/
structure BlockStats where
  duration_ms : ℚ
  avg_proofs_processed : ℚ
deriving DecidableEq

/-- Duration in seconds between the first and last sample, as an exact
rational (timestamps are microseconds). -/
def durationSecondsQ (first lastS : Nat × Nat) : ℚ :=
  ((lastS.1 : ℚ) - (first.1 : ℚ)) / 1000000

/-- `calculate_block_statistics`: fewer than two samples give zeroes;
otherwise the duration is reported in milliseconds and the average rate
`(last proofs value - first proofs value) / duration` is computed only when
the duration is strictly positive, else reported as zero. -/
def calculate_block_statistics : List (Nat × Nat) → BlockStats
  | [] => ⟨0, 0⟩
  | [_] => ⟨0, 0⟩
  | a :: b :: rest =>
      let lastS := (b :: rest).getLast (List.cons_ne_nil _ _)
      let dsec : ℚ := durationSecondsQ a lastS
      ⟨dsec * 1000,
       if 0 < dsec then ((lastS.2 : ℚ) - (a.2 : ℚ)) / dsec else 0⟩

/-! ### block-metrics.py: events and the Block Metadata Correlator -/

/-- A parsed log event, in file order.  The three completion-event pattern
families of `extract_block_metadata` become the three constructors; all
regex capture groups are carried as naturals (timestamps in microseconds,
durations and hashes opaquely). -/
inductive Ev where
  | blockAdded (ts number hash elapsed : Nat)
  | rootCalc (ts rootElapsed number hash : Nat)
  | proofs (ts totalTime : Nat)
deriving DecidableEq

/-- One per-block entry of `blocks_data` / `block_metadata`: the record the
Correlator builds from a BlockAdded event and enriches with the root and
proof events.  `root_elapsed` and `total_time` are absent until matched. -/
structure BEntry where
  timestamp : Nat
  block_hash : Nat
  elapsed_time : Nat
  block_number : Nat
  root_elapsed : Option Nat
  total_time : Option Nat
deriving DecidableEq

/-- The 10-second forward tolerance window for proof matching, in
microseconds. -/
def tenSec : Nat := 10000000

/-- Set the `root_elapsed` field. -/
def setRoot (re : Nat) (e : BEntry) : BEntry := { e with root_elapsed := some re }

/-- The scan of `extract_block_metadata`'s nearest-entry search, carrying
(position of the next element, best position so far, best distance so
far); a strictly smaller distance replaces the best, so the first entry
among equally distant ones wins, exactly like the source's `diff < min_diff`. -/
def closestGo (ts : Nat) : Nat → Nat → Nat → List BEntry → Nat
  | _, bestI, _, [] => bestI
  | i, bestI, bestD, e :: es =>
      if absDiff ts e.timestamp < bestD then
        closestGo ts (i + 1) i (absDiff ts e.timestamp) es
      else
        closestGo ts (i + 1) bestI bestD es

/-- Position of the entry whose timestamp is nearest to `ts` (the source
starts from `min_diff = inf`, so a nonempty list always yields one). -/
def closestIdx (ts : Nat) : List BEntry → Option Nat
  | [] => none
  | e :: es => some (closestGo ts 1 0 (absDiff ts e.timestamp) es)

/-- Attach a root-elapsed value to the entry nearest to the root event's
timestamp, overwriting any earlier attachment on that entry. -/
def updClosest (ts re : Nat) (es : List BEntry) : List BEntry :=
  match closestIdx ts es with
  | none => es
  | some i => modifyAt i (setRoot re) es

/-- Phase 1 of `extract_block_metadata`: every BlockAdded event appends a
fresh entry to its block number's bucket, in file order. -/
def phase1 (evs : List Ev) : List (Nat × List BEntry) :=
  evs.foldl
    (fun bd e =>
      match e with
      | .blockAdded ts n h el => bucketAdd n ⟨ts, h, el, n, none, none⟩ bd
      | _ => bd)
    []

/-- Phase 2: every StateRootCalculated event, in file order, updates the
nearest entry of its block number's bucket (no-op when the block number
was never seen as a BlockAdded event). -/
def phase2 (evs : List Ev) (bd : List (Nat × List BEntry)) : List (Nat × List BEntry) :=
  evs.foldl
    (fun bd e =>
      match e with
      | .rootCalc ts re n _ => mapBucket n (updClosest ts re) bd
      | _ => bd)
    bd

/-- The `(timestamp, total_time)` pairs of all ProofsProcessed events, in
file order. -/
def proofEvs (evs : List Ev) : List (Nat × Nat) :=
  evs.filterMap fun e =>
    match e with
    | .proofs ts tt => some (ts, tt)
    | _ => none

/-- First proof event of the (sorted) list landing inside the forward
window `[ets, ets + 10 s]`; the scan over earlier events just skips them,
like the source's linear loop with `break`. -/
def firstProofAfter (ets : Nat) : List (Nat × Nat) → Option Nat
  | [] => none
  | (pts, tt) :: rest =>
      if ets ≤ pts ∧ pts ≤ ets + tenSec then some tt else firstProofAfter ets rest

/-- Phase 3 step: attach the matched proof time to one entry (absent when
no proof event qualifies). -/
def attachProof (pts : List (Nat × Nat)) (e : BEntry) : BEntry :=
  match firstProofAfter e.timestamp pts with
  | some tt => { e with total_time := some tt }
  | none => e

/-- The per-block buckets after the BlockAdded and StateRootCalculated
phases. -/
def bdCorrelated (evs : List Ev) : List (Nat × List BEntry) :=
  phase2 evs (phase1 evs)

/-- All proof events sorted ascending by timestamp (`proof_times.sort`). -/
def proofTimesSorted (evs : List Ev) : List (Nat × Nat) :=
  sortByKey Prod.fst (proofEvs evs)

/-- The buckets after phase 3 attached the proof times. -/
def bdWithProofs (evs : List Ev) : List (Nat × List BEntry) :=
  (bdCorrelated evs).map fun p => (p.1, p.2.map (attachProof (proofTimesSorted evs)))

/-- `extract_block_metadata`: the three correlation phases followed by the
flattening of the per-block buckets into the timestamp-keyed dictionary. -/
def extract_block_metadata (evs : List Ev) : List (Nat × BEntry) :=
  (bdWithProofs evs).foldl
    (fun m p => p.2.foldl (fun m e => insertAssoc m e.timestamp e) m) []

/-! ### block-metrics.py: Run Splitter and common blocks -/

/-- Group the correlated records by block number, keeping dictionary order:
`block_occurrences` of `extract_block_metadata_from_single_file`. -/
def groupOcc (md : List (Nat × BEntry)) : List (Nat × List (Nat × BEntry)) :=
  md.foldl (fun b p => bucketAdd p.2.block_number p b) []

/-- Run-dictionary keys: the timestamp plus the flag distinguishing the
source's `timestamp + "_dup"` keys used for single-occurrence blocks. -/
abbrev RunKey : Type := Nat × Bool

/-- One splitter step: a block with at least two occurrences (sorted by
timestamp) sends the first to run 1 and the second to run 2, discarding the
rest; a single occurrence is copied into both runs. -/
def splitStep (acc : List (RunKey × BEntry) × List (RunKey × BEntry))
    (bucket : Nat × List (Nat × BEntry)) :
    List (RunKey × BEntry) × List (RunKey × BEntry) :=
  match sortByKey Prod.fst bucket.2 with
  | [] => acc
  | [(ts, e)] => (insertAssoc acc.1 (ts, false) e, insertAssoc acc.2 (ts, true) e)
  | (ts1, e1) :: (ts2, e2) :: _ =>
      (insertAssoc acc.1 (ts1, false) e1, insertAssoc acc.2 (ts2, false) e2)

/-- The Run Splitter on an already-correlated metadata dictionary. -/
def splitRuns (md : List (Nat × BEntry)) :
    List (RunKey × BEntry) × List (RunKey × BEntry) :=
  (groupOcc md).foldl splitStep ([], [])

/-- `extract_block_metadata_from_single_file`: correlate, then split. -/
def extract_block_metadata_from_single_file (evs : List Ev) :
    List (RunKey × BEntry) × List (RunKey × BEntry) :=
  splitRuns (extract_block_metadata evs)

/-- The key-value pairs of a run dictionary whose record carries block
number `n`. -/
def pairsFor (n : Nat) (run : List (RunKey × BEntry)) : List (RunKey × BEntry) :=
  run.filter fun p => decide (p.2.block_number = n)

/-- `get_common_block_numbers`: block numbers present in both run
dictionaries, as a set (modelled by deduplicated lists), sorted
ascending. -/
def get_common_block_numbers (r1 r2 : List (RunKey × BEntry)) : List Nat :=
  let b1 := (r1.map fun p => p.2.block_number).dedup
  let b2 := (r2.map fun p => p.2.block_number).dedup
  sortByKey (fun n => n) (b1.filter fun n => decide (n ∈ b2))

/-! ### block-metrics.py: Log-Window Selector -/

/-- How a raw line is classified by the three patterns of
`extract_log_lines_for_block` (the patterns are mutually exclusive). -/
inductive LKind where
  | added (n : Nat)
  | root (n : Nat)
  | proofsLine
  | other
deriving DecidableEq

/-- A raw log line: its embedded timestamp when it has one (lines without a
timestamp are skipped by the selector), its classification, and a tag
standing for the rest of the raw text so distinct lines stay distinct. -/
structure LLine where
  ts : Option Nat
  kind : LKind
  tag : Nat
deriving DecidableEq

/-- The 2-second backward window for the proof-summary line, microseconds. -/
def twoSec : Nat := 2000000

/-- The 5-second bidirectional window for the root-calculation line. -/
def fiveSec : Nat := 5000000

/-- Timestamped BlockAdded lines of the target block, in file order. -/
def addedLines (bn : Nat) (lines : List LLine) : List (Nat × LLine) :=
  lines.filterMap fun l =>
    match l.ts, l.kind with
    | some t, .added n => if n = bn then some (t, l) else none
    | _, _ => none

/-- Timestamped root-calculation lines of the target block, in file order. -/
def rootLines (bn : Nat) (lines : List LLine) : List (Nat × LLine) :=
  lines.filterMap fun l =>
    match l.ts, l.kind with
    | some t, .root n => if n = bn then some (t, l) else none
    | _, _ => none

/-- Timestamped proofs-processed lines (any block), in file order. -/
def proofLines (lines : List LLine) : List (Nat × LLine) :=
  lines.filterMap fun l =>
    match l.ts, l.kind with
    | some t, .proofsLine => some (t, l)
    | _, _ => none

/-- Pick the first or second occurrence: index 0 for the first run or when
only one occurrence exists, index 1 otherwise. -/
def firstOrSecond (isFirst : Bool) : List (Nat × LLine) → Option (Nat × LLine)
  | [] => none
  | [a] => some a
  | a :: b :: _ => if isFirst then some a else some b

/-- Choose the BlockAdded line for the requested run: with a boundary and
at least two occurrences, the first line strictly before (run 1) or at or
after (run 2) the boundary; otherwise first-or-second occurrence order. -/
def chooseAdded (isFirst : Bool) (boundary : Option Nat)
    (added : List (Nat × LLine)) : Option (Nat × LLine) :=
  match boundary with
  | some b =>
      if 2 ≤ added.length then
        (if isFirst then added.filter fun p => decide (p.1 < b)
         else added.filter fun p => ! decide (p.1 < b)).head?
      else firstOrSecond isFirst added
  | none => firstOrSecond isFirst added

/-- First proofs-processed line occurring 0 to 2 seconds before the chosen
BlockAdded timestamp. -/
def pickProof (ats : Nat) : List (Nat × LLine) → Option LLine
  | [] => none
  | (t, l) :: rest =>
      if t ≤ ats ∧ ats ≤ t + twoSec then some l else pickProof ats rest

/-- First root-calculation line within 5 seconds (either direction) of the
chosen BlockAdded timestamp. -/
def pickRoot (ats : Nat) : List (Nat × LLine) → Option LLine
  | [] => none
  | (t, l) :: rest =>
      if absDiff ats t ≤ fiveSec then some l else pickRoot ats rest

/-- `extract_log_lines_for_block`: classify and sort the relevant lines,
choose the BlockAdded line of the requested run (else return nothing), and
return proof-summary line, root-calculation line, BlockAdded line in that
order, the optional ones only when their windows are met. -/
def extract_log_lines_for_block (lines : List LLine) (bn : Nat)
    (isFirst : Bool) (boundary : Option Nat) : List LLine :=
  let added := sortByKey Prod.fst (addedLines bn lines)
  let roots := sortByKey Prod.fst (rootLines bn lines)
  let prf := sortByKey Prod.fst (proofLines lines)
  match chooseAdded isFirst boundary added with
  | none => []
  | some (ats, al) => (pickProof ats prf).toList ++ (pickRoot ats roots).toList ++ [al]

/-! ### Lemmas about the stable sort -/

theorem insSorted_perm {α : Type} (key : α → Nat) (a : α) :
    ∀ l : List α, List.Perm (insSorted key a l) (a :: l)
  | [] => by simp [insSorted]
  | b :: bs => by
      unfold insSorted
      split
      · exact List.Perm.refl _
      · exact ((insSorted_perm key a bs).cons b).trans (List.Perm.swap a b bs)

theorem sortByKey_perm {α : Type} (key : α → Nat) :
    ∀ l : List α, List.Perm (sortByKey key l) l
  | [] => List.Perm.refl _
  | a :: as => by
      unfold sortByKey
      exact (insSorted_perm key a (sortByKey key as)).trans
        ((sortByKey_perm key as).cons a)

theorem mem_sortByKey {α : Type} (key : α → Nat) (l : List α) (x : α) :
    x ∈ sortByKey key l ↔ x ∈ l :=
  (sortByKey_perm key l).mem_iff

theorem sortByKey_length {α : Type} (key : α → Nat) (l : List α) :
    (sortByKey key l).length = l.length :=
  (sortByKey_perm key l).length_eq

theorem chain'_insSorted {α : Type} (key : α → Nat) (a : α) :
    ∀ l : List α, List.Chain' (fun x y => key x ≤ key y) l →
      List.Chain' (fun x y => key x ≤ key y) (insSorted key a l)
  | [], _ => by simp [insSorted]
  | b :: bs, h => by
      unfold insSorted
      split
      next hab => exact h.cons hab
      next hab =>
        have hba : key b ≤ key a := le_of_not_le hab
        refine List.chain'_cons'.mpr ⟨?_, chain'_insSorted key a bs h.tail⟩
        intro y hy
        cases bs with
        | nil =>
            simp only [insSorted, List.head?_cons, Option.mem_def,
              Option.some.injEq] at hy
            subst hy; exact hba
        | cons c cs =>
            by_cases hac : key a ≤ key c
            · simp only [insSorted, if_pos hac, List.head?_cons, Option.mem_def,
                Option.some.injEq] at hy
              subst hy; exact hba
            · simp only [insSorted, if_neg hac, List.head?_cons, Option.mem_def,
                Option.some.injEq] at hy
              subst hy
              exact (List.chain'_cons.mp h).1

theorem chain'_sortByKey {α : Type} (key : α → Nat) :
    ∀ l : List α, List.Chain' (fun x y => key x ≤ key y) (sortByKey key l)
  | [] => List.chain'_nil
  | a :: as => chain'_insSorted key a _ (chain'_sortByKey key as)

theorem chain'_le_of_mem {α : Type} (key : α → Nat) :
    ∀ (x : α) (l : List α), List.Chain' (fun u v => key u ≤ key v) (x :: l) →
      ∀ y ∈ l, key x ≤ key y
  | _, [], _, _, hy => by cases hy
  | x, b :: bs, h, y, hy => by
      have hxb : key x ≤ key b := (List.chain'_cons.mp h).1
      rcases List.mem_cons.mp hy with hy1 | hy1
      · subst hy1; exact hxb
      · exact hxb.trans (chain'_le_of_mem key b bs (List.chain'_cons.mp h).2 y hy1)

/-! ### Lemmas about proof-time matching -/

theorem firstProofAfter_eq_none_iff (ets : Nat) :
    ∀ l : List (Nat × Nat), firstProofAfter ets l = none ↔
      ∀ p ∈ l, ¬ (ets ≤ p.1 ∧ p.1 ≤ ets + tenSec)
  | [] => by simp [firstProofAfter]
  | (pts, tt) :: rest => by
      unfold firstProofAfter
      split
      next hq =>
        constructor
        · intro h; cases h
        · intro h; exact absurd hq (h (pts, tt) (List.mem_cons_self _ _))
      next hq =>
        rw [firstProofAfter_eq_none_iff ets rest]
        constructor
        · intro h p hp
          rcases List.mem_cons.mp hp with hp1 | hp1
          · subst hp1; exact hq
          · exact h p hp1
        · intro h p hp; exact h p (List.mem_cons_of_mem _ hp)

theorem firstProofAfter_eq_some (ets : Nat) :
    ∀ l : List (Nat × Nat), List.Chain' (fun u v => u.1 ≤ v.1) l →
      ∀ tt, firstProofAfter ets l = some tt →
        ∃ pts, (pts, tt) ∈ l ∧ (ets ≤ pts ∧ pts ≤ ets + tenSec) ∧
          ∀ q ∈ l, (ets ≤ q.1 ∧ q.1 ≤ ets + tenSec) → pts ≤ q.1
  | [], _, tt, h => by simp [firstProofAfter] at h
  | (pts', tt') :: rest, hch, tt, h => by
      unfold firstProofAfter at h
      split at h
      next hq =>
        have htt : tt' = tt := Option.some.inj h
        subst htt
        refine ⟨pts', List.mem_cons_self _ _, hq, ?_⟩
        intro q hqmem _
        rcases List.mem_cons.mp hqmem with hqm | hqm
        · subst hqm; exact Nat.le_refl _
        · exact chain'_le_of_mem Prod.fst (pts', tt') rest hch q hqm
      next hq =>
        obtain ⟨pts, hmem, hqual, hmin⟩ :=
          firstProofAfter_eq_some ets rest hch.tail tt h
        refine ⟨pts, List.mem_cons_of_mem _ hmem, hqual, ?_⟩
        intro q hqmem hq2
        rcases List.mem_cons.mp hqmem with hqm | hqm
        · subst hqm; exact absurd hq2 hq
        · exact hmin q hqm hq2

/-! ### Membership lemmas for dictionary folds -/

theorem mem_insertAssoc {κ α : Type} [DecidableEq κ] :
    ∀ (m : List (κ × α)) (k : κ) (v : α) (p : κ × α),
      p ∈ insertAssoc m k v → p ∈ m ∨ p = (k, v)
  | [], k, v, p, h => by
      simp only [insertAssoc, List.mem_singleton] at h
      exact Or.inr h
  | (k', v') :: rest, k, v, p, h => by
      unfold insertAssoc at h
      split at h
      · rcases List.mem_cons.mp h with h1 | h1
        · exact Or.inr h1
        · exact Or.inl (List.mem_cons_of_mem _ h1)
      · rcases List.mem_cons.mp h with h1 | h1
        · exact Or.inl (h1 ▸ List.mem_cons_self _ _)
        · rcases mem_insertAssoc rest k v p h1 with h2 | h2
          · exact Or.inl (List.mem_cons_of_mem _ h2)
          · exact Or.inr h2

theorem mem_innerFold :
    ∀ (es : List BEntry) (m : List (Nat × BEntry)) (p : Nat × BEntry),
      p ∈ es.foldl (fun m e => insertAssoc m e.timestamp e) m →
      p ∈ m ∨ ∃ e ∈ es, p = (e.timestamp, e)
  | [], _, _, h => Or.inl h
  | e :: es, m, p, h => by
      simp only [List.foldl_cons] at h
      rcases mem_innerFold es _ p h with h1 | h1
      · rcases mem_insertAssoc m e.timestamp e p h1 with h2 | h2
        · exact Or.inl h2
        · exact Or.inr ⟨e, List.mem_cons_self _ _, h2⟩
      · obtain ⟨e', he', hp⟩ := h1
        exact Or.inr ⟨e', List.mem_cons_of_mem _ he', hp⟩

theorem mem_outerFold :
    ∀ (bs : List (Nat × List BEntry)) (m : List (Nat × BEntry)) (p : Nat × BEntry),
      p ∈ bs.foldl (fun m q => q.2.foldl (fun m e => insertAssoc m e.timestamp e) m) m →
      p ∈ m ∨ ∃ b ∈ bs, ∃ e ∈ b.2, p = (e.timestamp, e)
  | [], _, _, h => Or.inl h
  | b :: bs, m, p, h => by
      simp only [List.foldl_cons] at h
      rcases mem_outerFold bs _ p h with h1 | h1
      · rcases mem_innerFold b.2 m p h1 with h2 | h2
        · exact Or.inl h2
        · obtain ⟨e, he, hp⟩ := h2
          exact Or.inr ⟨b, List.mem_cons_self _ _, e, he, hp⟩
      · obtain ⟨b', hb', e, he, hp⟩ := h1
        exact Or.inr ⟨b', List.mem_cons_of_mem _ hb', e, he, hp⟩

theorem mem_modifyAt {α : Type} :
    ∀ (l : List α) (i : Nat) (f : α → α) (x : α),
      x ∈ modifyAt i f l → x ∈ l ∨ ∃ y ∈ l, x = f y
  | [], i, _, _, h => by cases i <;> simp [modifyAt] at h
  | a :: as, 0, f, x, h => by
      rcases List.mem_cons.mp h with h1 | h1
      · exact Or.inr ⟨a, List.mem_cons_self _ _, h1⟩
      · exact Or.inl (List.mem_cons_of_mem _ h1)
  | a :: as, i + 1, f, x, h => by
      rcases List.mem_cons.mp h with h1 | h1
      · exact Or.inl (h1 ▸ List.mem_cons_self _ _)
      · rcases mem_modifyAt as i f x h1 with h2 | h2
        · exact Or.inl (List.mem_cons_of_mem _ h2)
        · obtain ⟨y, hy, hx⟩ := h2
          exact Or.inr ⟨y, List.mem_cons_of_mem _ hy, hx⟩

theorem mem_updClosest (ts re : Nat) (es : List BEntry) (x : BEntry)
    (h : x ∈ updClosest ts re es) : x ∈ es ∨ ∃ y ∈ es, x = setRoot re y := by
  unfold updClosest at h
  split at h
  · exact Or.inl h
  · exact mem_modifyAt es _ (setRoot re) x h

/-! ### Every correlated entry still has `total_time` unset going into
    phase 3 -/

/-- All entries of all buckets have `total_time` unset. -/
def entriesAllNone (bd : List (Nat × List BEntry)) : Prop :=
  ∀ b ∈ bd, ∀ e ∈ b.2, e.total_time = none

theorem entriesAllNone_bucketAdd (n : Nat) (v : BEntry) (hv : v.total_time = none) :
    ∀ bd : List (Nat × List BEntry), entriesAllNone bd → entriesAllNone (bucketAdd n v bd)
  | [], _ => by
      intro b hb e he
      simp only [bucketAdd, List.mem_singleton] at hb
      subst hb
      simp only [List.mem_singleton] at he
      subst he
      exact hv
  | (m, vs) :: rest, h => by
      intro b hb e he
      unfold bucketAdd at hb
      split at hb
      · rcases List.mem_cons.mp hb with h1 | h1
        · subst h1
          rcases List.mem_append.mp he with h2 | h2
          · exact h (m, vs) (List.mem_cons_self _ _) e h2
          · simp only [List.mem_singleton] at h2
            subst h2; exact hv
        · exact h b (List.mem_cons_of_mem _ h1) e he
      · rcases List.mem_cons.mp hb with h1 | h1
        · subst h1
          exact h (m, vs) (List.mem_cons_self _ _) e he
        · exact entriesAllNone_bucketAdd n v hv rest
            (fun b' hb' e' he' => h b' (List.mem_cons_of_mem _ hb') e' he') b h1 e he

theorem entriesAllNone_phase1_aux :
    ∀ (evs : List Ev) (bd : List (Nat × List BEntry)), entriesAllNone bd →
      entriesAllNone (evs.foldl
        (fun bd e =>
          match e with
          | .blockAdded ts n h el => bucketAdd n ⟨ts, h, el, n, none, none⟩ bd
          | _ => bd) bd)
  | [], _, h => h
  | e :: evs, bd, h => by
      simp only [List.foldl_cons]
      cases e with
      | blockAdded ts n hh el =>
          exact entriesAllNone_phase1_aux evs _
            (entriesAllNone_bucketAdd n ⟨ts, hh, el, n, none, none⟩ rfl bd h)
      | rootCalc ts re n hh => exact entriesAllNone_phase1_aux evs _ h
      | proofs ts tt => exact entriesAllNone_phase1_aux evs _ h

theorem entriesAllNone_phase1 (evs : List Ev) : entriesAllNone (phase1 evs) :=
  entriesAllNone_phase1_aux evs [] (fun b hb => by cases hb)

theorem entriesAllNone_mapBucket (k ts re : Nat) (bd : List (Nat × List BEntry))
    (h : entriesAllNone bd) : entriesAllNone (mapBucket k (updClosest ts re) bd) := by
  intro b hb e he
  unfold mapBucket at hb
  obtain ⟨b0, hb0, hbeq⟩ := List.mem_map.mp hb
  by_cases hk : b0.1 = k
  · rw [if_pos hk] at hbeq
    subst hbeq
    rcases mem_updClosest ts re b0.2 e he with h1 | h1
    · exact h b0 hb0 e h1
    · obtain ⟨y, hy, hxy⟩ := h1
      subst hxy
      exact h b0 hb0 y hy
  · rw [if_neg hk] at hbeq
    subst hbeq
    exact h b0 hb0 e he

theorem entriesAllNone_phase2_aux :
    ∀ (evs : List Ev) (bd : List (Nat × List BEntry)), entriesAllNone bd →
      entriesAllNone (evs.foldl
        (fun bd e =>
          match e with
          | .rootCalc ts re n _ => mapBucket n (updClosest ts re) bd
          | _ => bd) bd)
  | [], _, h => h
  | e :: evs, bd, h => by
      simp only [List.foldl_cons]
      cases e with
      | blockAdded ts n hh el => exact entriesAllNone_phase2_aux evs _ h
      | rootCalc ts re n hh =>
          exact entriesAllNone_phase2_aux evs _ (entriesAllNone_mapBucket n ts re bd h)
      | proofs ts tt => exact entriesAllNone_phase2_aux evs _ h

theorem entriesAllNone_bdCorrelated (evs : List Ev) : entriesAllNone (bdCorrelated evs) :=
  entriesAllNone_phase2_aux evs (phase1 evs) (entriesAllNone_phase1 evs)

/-! ### Shape of `attachProof` and of the final dictionary entries -/

theorem attachProof_timestamp (pts : List (Nat × Nat)) (e : BEntry) :
    (attachProof pts e).timestamp = e.timestamp := by
  unfold attachProof
  split <;> rfl

theorem attachProof_total (pts : List (Nat × Nat)) (e : BEntry)
    (h : e.total_time = none) :
    (attachProof pts e).total_time = firstProofAfter e.timestamp pts := by
  unfold attachProof
  split
  next tt heq => exact heq.symm
  next heq => rw [h, heq]

theorem extract_entry_shape (evs : List Ev) (k : Nat) (e : BEntry)
    (h : (k, e) ∈ extract_block_metadata evs) :
    ∃ e2 : BEntry, e2.total_time = none ∧ e = attachProof (proofTimesSorted evs) e2 := by
  unfold extract_block_metadata at h
  rcases mem_outerFold _ _ _ h with h1 | h1
  · cases h1
  · obtain ⟨b, hb, e', he', hpe⟩ := h1
    unfold bdWithProofs at hb
    obtain ⟨b0, hb0, hbeq⟩ := List.mem_map.mp hb
    subst hbeq
    obtain ⟨e2, he2, heq⟩ := List.mem_map.mp he'
    have hnone := entriesAllNone_bdCorrelated evs b0 hb0 e2 he2
    have he : e = e' := congrArg Prod.snd hpe
    exact ⟨e2, hnone, he.trans heq.symm⟩

/-! ### Claim C2 -/

/-- A log where one ProofsProcessed event qualifies for two BlockRecords. -/
def c2SharedLog : List Ev :=
  [.blockAdded 0 100 1 1, .blockAdded 1000000 101 2 2, .proofs 2000000 77]

/-- A log whose only ProofsProcessed event carries exactly the BlockAdded
timestamp: the code attaches it even though it is not strictly after. -/
def c2CexLog : List Ev := [.blockAdded 1000000 100 5 7, .proofs 1000000 99]

/-- Claim C2, counterexample: for a ProofsProcessed event at exactly the
BlockAdded timestamp — hence not strictly after it, so the claim would
leave `processing_time` absent — the code attaches it: the record's
`total_time` is `some 99`, never absent. -/
theorem claim2_counterexample :
    (extract_block_metadata c2CexLog).map (fun p => (p.1, p.2.total_time)) =
      [(1000000, some 99)] ∧
    ∀ p ∈ extract_block_metadata c2CexLog, p.2.total_time ≠ none :=
  ⟨by decide, by decide⟩

/-- Claim C2 (amended: the window is inclusive at its left end): every
record of the Correlator output carries as `total_time` the earliest
ProofsProcessed event whose timestamp is at or after the record's
BlockAdded timestamp and at most 10 seconds after it, and carries no
`total_time` when no proof event lies in that window; and a single
ProofsProcessed event may be attached to two BlockRecords, as on
`c2SharedLog`. -/
theorem claim2_theorem :
    (∀ (evs : List Ev) (k : Nat) (e : BEntry), (k, e) ∈ extract_block_metadata evs →
      (e.total_time = none ∧
        ∀ p ∈ proofEvs evs, ¬ (e.timestamp ≤ p.1 ∧ p.1 ≤ e.timestamp + tenSec)) ∨
      (∃ p ∈ proofEvs evs, (e.timestamp ≤ p.1 ∧ p.1 ≤ e.timestamp + tenSec) ∧
        e.total_time = some p.2 ∧
        ∀ q ∈ proofEvs evs, (e.timestamp ≤ q.1 ∧ q.1 ≤ e.timestamp + tenSec) →
          p.1 ≤ q.1)) ∧
    (extract_block_metadata c2SharedLog).map (fun p => (p.2.block_number, p.2.total_time)) =
      [(100, some 77), (101, some 77)] := by
  constructor
  · intro evs k e h
    obtain ⟨e2, hnone, rfl⟩ := extract_entry_shape evs k e h
    have hts := attachProof_timestamp (proofTimesSorted evs) e2
    have htt := attachProof_total (proofTimesSorted evs) e2 hnone
    rw [hts, htt]
    cases hfp : firstProofAfter e2.timestamp (proofTimesSorted evs) with
    | none =>
        left
        refine ⟨rfl, fun p hp => ?_⟩
        exact (firstProofAfter_eq_none_iff e2.timestamp (proofTimesSorted evs)).mp hfp
          p ((mem_sortByKey Prod.fst (proofEvs evs) p).mpr hp)
    | some tt =>
        right
        obtain ⟨pts, hmem, hqual, hmin⟩ :=
          firstProofAfter_eq_some e2.timestamp (proofTimesSorted evs)
            (chain'_sortByKey Prod.fst (proofEvs evs)) tt hfp
        refine ⟨(pts, tt), (mem_sortByKey Prod.fst (proofEvs evs) _).mp hmem,
          hqual, rfl, ?_⟩
        intro q hq hq2
        exact hmin q ((mem_sortByKey Prod.fst (proofEvs evs) q).mpr hq) hq2
  · decide

/-- Concrete instance of the amended C2 statement, at the first record of
`c2SharedLog`. -/
theorem claim2_witness :
    (BEntry.total_time ⟨0, 1, 1, 100, none, some 77⟩ = none ∧
      ∀ p ∈ proofEvs c2SharedLog,
        ¬ (BEntry.timestamp ⟨0, 1, 1, 100, none, some 77⟩ ≤ p.1 ∧
           p.1 ≤ BEntry.timestamp ⟨0, 1, 1, 100, none, some 77⟩ + tenSec)) ∨
    (∃ p ∈ proofEvs c2SharedLog,
      (BEntry.timestamp ⟨0, 1, 1, 100, none, some 77⟩ ≤ p.1 ∧
        p.1 ≤ BEntry.timestamp ⟨0, 1, 1, 100, none, some 77⟩ + tenSec) ∧
      BEntry.total_time ⟨0, 1, 1, 100, none, some 77⟩ = some p.2 ∧
      ∀ q ∈ proofEvs c2SharedLog,
        (BEntry.timestamp ⟨0, 1, 1, 100, none, some 77⟩ ≤ q.1 ∧
          q.1 ≤ BEntry.timestamp ⟨0, 1, 1, 100, none, some 77⟩ + tenSec) →
        p.1 ≤ q.1) :=
  claim2_theorem.1 c2SharedLog 0 ⟨0, 1, 1, 100, none, some 77⟩ (by decide)

/-! ### Claim C1 -/

/-- The C1 scenario log: a ProofsProcessed event at T+1s, a BlockAdded
event at T+3s, and a ProofsProcessed event at T+15s. -/
def c1Log (T p1 p2 n h el : Nat) : List Ev :=
  [.proofs (T + 1000000) p1, .blockAdded (T + 3000000) n h el,
   .proofs (T + 15000000) p2]

/-- Claim C1, counterexample: on the scenario log with T = 0, the record
for the block carries no `total_time` at all — in particular not the value
42 of the T+1s ProofsProcessed event, which the claim says is attached. -/
theorem claim1_counterexample :
    (extract_block_metadata (c1Log 0 42 43 100 7 8)).map
        (fun p => (p.1, p.2.total_time)) = [(3000000, none)] ∧
    ∀ p ∈ extract_block_metadata (c1Log 0 42 43 100 7 8),
      p.2.total_time ≠ some 42 :=
  ⟨by decide, by decide⟩

/-- A sort of two already-ordered elements is the identity. -/
theorem sortByKey_pair {α : Type} (key : α → Nat) (a b : α) (h : key a ≤ key b) :
    sortByKey key [a, b] = [a, b] := by
  simp [sortByKey, insSorted, h]

/-- When no proof event qualifies, phase 3 leaves the entry unchanged. -/
theorem attachProof_of_none (pts : List (Nat × Nat)) (e : BEntry)
    (h : firstProofAfter e.timestamp pts = none) : attachProof pts e = e := by
  unfold attachProof
  rw [h]

/-- Claim C1 (amended: the matching is forward-only, so the T+1s event,
which precedes the BlockAdded event, is never attached; and the T+15s
event, outside the 10-second forward window, is never attached either — so
the record's `processing_time` stays absent): for every base time and
field values, the Correlator's output on the scenario log is the single
record of the BlockAdded event with both optional fields unset. -/
theorem claim1_amended (T p1 p2 n h el : Nat) :
    extract_block_metadata (c1Log T p1 p2 n h el) =
      [(T + 3000000, ⟨T + 3000000, h, el, n, none, none⟩)] := by
  have hs : proofTimesSorted (c1Log T p1 p2 n h el) =
      [(T + 1000000, p1), (T + 15000000, p2)] := by
    show sortByKey Prod.fst (proofEvs (c1Log T p1 p2 n h el)) = _
    rw [show proofEvs (c1Log T p1 p2 n h el) =
      [(T + 1000000, p1), (T + 15000000, p2)] from rfl]
    exact sortByKey_pair Prod.fst _ _ (by show T + 1000000 ≤ T + 15000000; omega)
  have hfp : firstProofAfter (T + 3000000)
      (proofTimesSorted (c1Log T p1 p2 n h el)) = none := by
    rw [hs]
    refine (firstProofAfter_eq_none_iff _ _).mpr ?_
    intro p hp
    rcases List.mem_cons.mp hp with hp1 | hp1
    · subst hp1
      intro hq
      omega
    · rcases List.mem_singleton.mp hp1 with rfl
      intro hq
      have := hq.2
      simp only [tenSec] at this
      omega
  have hattach : attachProof (proofTimesSorted (c1Log T p1 p2 n h el))
      (⟨T + 3000000, h, el, n, none, none⟩ : BEntry) =
      ⟨T + 3000000, h, el, n, none, none⟩ :=
    attachProof_of_none _ _ hfp
  calc extract_block_metadata (c1Log T p1 p2 n h el)
      = [((attachProof (proofTimesSorted (c1Log T p1 p2 n h el))
            ⟨T + 3000000, h, el, n, none, none⟩).timestamp,
          attachProof (proofTimesSorted (c1Log T p1 p2 n h el))
            ⟨T + 3000000, h, el, n, none, none⟩)] := rfl
    _ = [(T + 3000000, ⟨T + 3000000, h, el, n, none, none⟩)] := by rw [hattach]

/-! ### Claim C3 -/

theorem closestGo_spec (ts : Nat) :
    ∀ (l : List BEntry) (i bI bD : Nat),
      (closestGo ts i bI bD l = bI ∧ ∀ e ∈ l, bD ≤ absDiff ts e.timestamp) ∨
      (∃ j, ∃ hj : j < l.length, closestGo ts i bI bD l = i + j ∧
        absDiff ts ((l.get ⟨j, hj⟩).timestamp) < bD ∧
        ∀ e ∈ l, absDiff ts ((l.get ⟨j, hj⟩).timestamp) ≤ absDiff ts e.timestamp)
  | [], i, bI, bD => Or.inl ⟨rfl, by intro e he; cases he⟩
  | e :: es, i, bI, bD => by
      unfold closestGo
      by_cases hd : absDiff ts e.timestamp < bD
      · rw [if_pos hd]
        rcases closestGo_spec ts es (i + 1) i (absDiff ts e.timestamp) with
          ⟨heq, hmin⟩ | ⟨j, hj, heq, hlt, hmin⟩
        · right
          refine ⟨0, Nat.succ_pos _, ?_, hd, ?_⟩
          · rw [heq]; omega
          · intro e' he'
            rcases List.mem_cons.mp he' with rfl | he'
            · exact Nat.le_refl _
            · exact hmin e' he'
        · right
          refine ⟨j + 1, Nat.succ_lt_succ hj, ?_, hlt.trans hd, ?_⟩
          · rw [heq]; omega
          · intro e' he'
            rcases List.mem_cons.mp he' with rfl | he'
            · exact Nat.le_of_lt hlt
            · exact hmin e' he'
      · rw [if_neg hd]
        have hd' : bD ≤ absDiff ts e.timestamp := Nat.le_of_not_lt hd
        rcases closestGo_spec ts es (i + 1) bI bD with
          ⟨heq, hmin⟩ | ⟨j, hj, heq, hlt, hmin⟩
        · left
          refine ⟨heq, ?_⟩
          intro e' he'
          rcases List.mem_cons.mp he' with rfl | he'
          · exact hd'
          · exact hmin e' he'
        · right
          refine ⟨j + 1, Nat.succ_lt_succ hj, ?_, hlt, ?_⟩
          · rw [heq]; omega
          · intro e' he'
            rcases List.mem_cons.mp he' with rfl | he'
            · exact Nat.le_of_lt (Nat.lt_of_lt_of_le hlt hd')
            · exact hmin e' he'

theorem closestIdx_spec (ts : Nat) :
    ∀ es : List BEntry, es ≠ [] →
      ∃ i, ∃ h : i < es.length, closestIdx ts es = some i ∧
        ∀ j, ∀ hj : j < es.length,
          absDiff ts ((es.get ⟨i, h⟩).timestamp) ≤ absDiff ts ((es.get ⟨j, hj⟩).timestamp)
  | [], h => absurd rfl h
  | e :: es, _ => by
      rcases closestGo_spec ts es 1 0 (absDiff ts e.timestamp) with
        ⟨heq, hmin⟩ | ⟨j, hj, heq, hlt, hmin⟩
      · refine ⟨0, Nat.succ_pos _, ?_, ?_⟩
        · show some (closestGo ts 1 0 (absDiff ts e.timestamp) es) = some 0
          rw [heq]
        · intro j hj
          cases j with
          | zero => exact Nat.le_refl _
          | succ j' => exact hmin _ (List.get_mem es j' (Nat.lt_of_succ_lt_succ hj))
      · refine ⟨j + 1, Nat.succ_lt_succ hj, ?_, ?_⟩
        · show some (closestGo ts 1 0 (absDiff ts e.timestamp) es) = some (j + 1)
          rw [heq, Nat.add_comm]
        · intro j' hj'
          cases j' with
          | zero => exact Nat.le_of_lt hlt
          | succ j'' => exact hmin _ (List.get_mem es j'' (Nat.lt_of_succ_lt_succ hj'))

/-- The C3 scenario log: one BlockAdded event for block 100 at T = 0, then
StateRootCalculated events for block 100 at T+2s (value 10) and T+50s
(value 20), in file order. -/
def c3Log : List Ev :=
  [.blockAdded 0 100 1 1, .rootCalc 2000000 10 100 1, .rootCalc 50000000 20 100 1]

/-- Claim C3, counterexample: on the scenario log the block's record ends
up with the T+50s event's value 20 — the T+2s value 10, which the claim
says is the one attached, is nowhere in the output. -/
theorem claim3_counterexample :
    (extract_block_metadata c3Log).map (fun p => (p.1, p.2.root_elapsed)) =
      [(0, some 20)] ∧
    ∀ p ∈ extract_block_metadata c3Log, p.2.root_elapsed ≠ some 10 :=
  ⟨by decide, by decide⟩

/-- Claim C3 (amended: each StateRootCalculated event does attach to the
matching-block record whose timestamp is nearest, with no distance bound —
but events are processed in file order and a later event targeting the
same record OVERWRITES the earlier value, so on the scenario log the
record reports the T+50s value, never keeping the T+2s one): the update
step rewrites exactly a nearest entry, and on `c3Log` the surviving
`root_elapsed` is the T+50s event's value 20. -/
theorem claim3_amended :
    (∀ (ts re : Nat) (es : List BEntry), es ≠ [] →
      ∃ i, ∃ h : i < es.length,
        updClosest ts re es = modifyAt i (setRoot re) es ∧
        ∀ j, ∀ hj : j < es.length,
          absDiff ts ((es.get ⟨i, h⟩).timestamp) ≤
            absDiff ts ((es.get ⟨j, hj⟩).timestamp)) ∧
    (extract_block_metadata c3Log).map (fun p => (p.1, p.2.root_elapsed)) =
      [(0, some 20)] := by
  constructor
  · intro ts re es hne
    obtain ⟨i, h, hidx, hmin⟩ := closestIdx_spec ts es hne
    refine ⟨i, h, ?_, hmin⟩
    unfold updClosest
    rw [hidx]
  · decide

/-- Concrete instance of the amended C3 statement: among entries at
timestamps 0 and 7, the update for a root event at timestamp 5 rewrites a
nearest entry (the one at 7, distance 2). -/
theorem claim3_witness :
    ∃ i, ∃ h : i < ([⟨0, 1, 1, 100, none, none⟩,
        ⟨7, 1, 1, 100, none, none⟩] : List BEntry).length,
      updClosest 5 9 [⟨0, 1, 1, 100, none, none⟩, ⟨7, 1, 1, 100, none, none⟩] =
        modifyAt i (setRoot 9)
          [⟨0, 1, 1, 100, none, none⟩, ⟨7, 1, 1, 100, none, none⟩] ∧
      ∀ j, ∀ hj : j < ([⟨0, 1, 1, 100, none, none⟩,
          ⟨7, 1, 1, 100, none, none⟩] : List BEntry).length,
        absDiff 5 ((([⟨0, 1, 1, 100, none, none⟩,
            ⟨7, 1, 1, 100, none, none⟩] : List BEntry).get ⟨i, h⟩).timestamp) ≤
          absDiff 5 ((([⟨0, 1, 1, 100, none, none⟩,
            ⟨7, 1, 1, 100, none, none⟩] : List BEntry).get ⟨j, hj⟩).timestamp) :=
  claim3_amended.1 5 9 _ (List.cons_ne_nil _ _)

/-! ### Claim C9 -/

/-- Claim C9: with fewer than two samples the statistics are zeroes; with
at least two samples the average rate is the counter delta divided by the
duration exactly when the duration is strictly positive — and that divisor
is then nonzero — and is reported as zero when the duration is not
positive. -/
theorem claim9_theorem (samples : List (Nat × Nat)) :
    (samples.length < 2 → calculate_block_statistics samples = ⟨0, 0⟩) ∧
    (∀ a b rest, samples = a :: b :: rest →
      ((0 : ℚ) < durationSecondsQ a ((b :: rest).getLast (List.cons_ne_nil b rest)) →
        (calculate_block_statistics samples).avg_proofs_processed =
          ((((b :: rest).getLast (List.cons_ne_nil b rest)).2 : ℚ) - (a.2 : ℚ)) /
            durationSecondsQ a ((b :: rest).getLast (List.cons_ne_nil b rest)) ∧
        durationSecondsQ a ((b :: rest).getLast (List.cons_ne_nil b rest)) ≠ 0) ∧
      (¬ (0 : ℚ) < durationSecondsQ a ((b :: rest).getLast (List.cons_ne_nil b rest)) →
        (calculate_block_statistics samples).avg_proofs_processed = 0)) := by
  constructor
  · intro hlen
    match samples with
    | [] => rfl
    | [_] => rfl
    | a :: b :: rest =>
        simp only [List.length_cons] at hlen
        omega
  · intro a b rest heq
    subst heq
    constructor
    · intro hpos
      refine ⟨?_, ne_of_gt hpos⟩
      simp only [calculate_block_statistics]
      rw [if_pos hpos]
    · intro hneg
      simp only [calculate_block_statistics]
      rw [if_neg hneg]

/-- Concrete instance of C9: two samples two seconds apart with a counter
delta of 10 give rate 5, through a nonzero divisor. -/
theorem claim9_witness :
    (calculate_block_statistics [(0, 5), (2000000, 15)]).avg_proofs_processed = 5 ∧
    durationSecondsQ (0, 5) (2000000, 15) ≠ 0 := by
  have h := (claim9_theorem [(0, 5), (2000000, 15)]).2 (0, 5) (2000000, 15) [] rfl
  have h2 := h.1 (by norm_num [durationSecondsQ])
  refine ⟨?_, h2.2⟩
  rw [h2.1]
  norm_num [durationSecondsQ]

/-! ### Boundary-loop lemmas for Claims C5 and C6 -/

theorem boundariesLoop_append :
    ∀ (rest : List (Nat × Nat)) (acc : List BlockWindow) (cs pt pp : Nat),
      ∃ l, boundariesLoop acc cs pt pp rest = acc ++ l
  | [], acc, cs, pt, pp => by
      unfold boundariesLoop
      split
      · exact ⟨[⟨acc.length, cs, pt⟩], rfl⟩
      · exact ⟨[], (List.append_nil acc).symm⟩
  | (t, p) :: rest, acc, cs, pt, pp => by
      unfold boundariesLoop
      split
      · obtain ⟨l, hl⟩ := boundariesLoop_append rest (acc ++ [⟨acc.length, cs, pt⟩]) t t p
        exact ⟨⟨acc.length, cs, pt⟩ :: l, by rw [hl, List.append_assoc]; rfl⟩
      · exact boundariesLoop_append rest acc cs t p

theorem mem_boundariesLoop_of_mem_acc (rest : List (Nat × Nat))
    (acc : List BlockWindow) (cs pt pp : Nat) (w : BlockWindow) (hw : w ∈ acc) :
    w ∈ boundariesLoop acc cs pt pp rest := by
  obtain ⟨l, hl⟩ := boundariesLoop_append rest acc cs pt pp
  rw [hl]
  exact List.mem_append_left l hw

theorem resetClose_loop (ta pa tb pb : Nat) (hreset : 2 * pb < pa ∨ pb = 0) :
    ∀ (mid s2 : List (Nat × Nat)) (acc : List BlockWindow) (cs pt pp : Nat),
      ∃ w ∈ boundariesLoop acc cs pt pp (mid ++ (ta, pa) :: (tb, pb) :: s2),
        w.endTs = ta
  | [], s2, acc, cs, pt, pp => by
      show ∃ w ∈ boundariesLoop acc cs pt pp ((ta, pa) :: (tb, pb) :: s2), w.endTs = ta
      unfold boundariesLoop
      split
      · show ∃ w ∈ boundariesLoop (acc ++ [⟨acc.length, cs, pt⟩]) ta ta pa
            ((tb, pb) :: s2), w.endTs = ta
        unfold boundariesLoop
        rw [if_pos hreset]
        have hmem : (⟨(acc ++ [(⟨acc.length, cs, pt⟩ : BlockWindow)]).length, ta, ta⟩ :
            BlockWindow) ∈
            (acc ++ [(⟨acc.length, cs, pt⟩ : BlockWindow)]) ++
              [(⟨(acc ++ [(⟨acc.length, cs, pt⟩ : BlockWindow)]).length, ta, ta⟩ :
                BlockWindow)] :=
          List.mem_append_right _ (List.mem_singleton.mpr rfl)
        exact ⟨_, mem_boundariesLoop_of_mem_acc _ _ _ _ _ _ hmem, rfl⟩
      · show ∃ w ∈ boundariesLoop acc cs ta pa ((tb, pb) :: s2), w.endTs = ta
        unfold boundariesLoop
        rw [if_pos hreset]
        have hmem : (⟨acc.length, cs, ta⟩ : BlockWindow) ∈
            acc ++ [(⟨acc.length, cs, ta⟩ : BlockWindow)] :=
          List.mem_append_right _ (List.mem_singleton.mpr rfl)
        exact ⟨_, mem_boundariesLoop_of_mem_acc _ _ _ _ _ _ hmem, rfl⟩
  | (t, p) :: mid, s2, acc, cs, pt, pp => by
      show ∃ w ∈ boundariesLoop acc cs pt pp ((t, p) :: (mid ++ (ta, pa) :: (tb, pb) :: s2)),
        w.endTs = ta
      unfold boundariesLoop
      split
      · exact resetClose_loop ta pa tb pb hreset mid s2 _ t t p
      · exact resetClose_loop ta pa tb pb hreset mid s2 acc cs t p

theorem lastWin_loop :
    ∀ (rest : List (Nat × Nat)) (acc : List BlockWindow) (cs pt pp : Nat),
      rest ≠ [] → cs ≤ pt →
      List.Chain' (· < ·) (pt :: rest.map Prod.fst) →
      lastNoReset pp rest →
      ∃ l n st tl, rest.getLast? = some tl ∧
        boundariesLoop acc cs pt pp rest = l ++ [⟨n, st, tl.1⟩]
  | [], _, _, _, _, hne, _, _, _ => absurd rfl hne
  | [(t, p)], acc, cs, pt, pp, _, hcs, hch, hnr => by
      have hpt : pt < t := (List.chain'_cons.mp hch).1
      have hnr' : ¬ (2 * p < pp ∨ p = 0) := hnr
      have hcst : cs ≠ t := by omega
      refine ⟨acc, acc.length, cs, (t, p), rfl, ?_⟩
      unfold boundariesLoop
      rw [if_neg hnr']
      unfold boundariesLoop
      rw [if_pos hcst]
  | (t, p) :: (t2, p2) :: rest, acc, cs, pt, pp, _, hcs, hch, hnr => by
      have hpt : pt < t := (List.chain'_cons.mp hch).1
      have hch' : List.Chain' (· < ·) (t :: ((t2, p2) :: rest).map Prod.fst) :=
        (List.chain'_cons.mp hch).2
      have hnr' : lastNoReset p ((t2, p2) :: rest) := hnr
      have hlast :
          ∀ (acc' : List BlockWindow) (cs' : Nat), cs' ≤ t →
            ∃ l n st tl, ((t2, p2) :: rest).getLast? = some tl ∧
              boundariesLoop acc' cs' t p ((t2, p2) :: rest) = l ++ [⟨n, st, tl.1⟩] :=
        fun acc' cs' h =>
          lastWin_loop ((t2, p2) :: rest) acc' cs' t p (List.cons_ne_nil _ _) h hch' hnr'
      unfold boundariesLoop
      split
      · obtain ⟨l, n, st, tl, htl, heq⟩ := hlast (acc ++ [⟨acc.length, cs, pt⟩]) t (Nat.le_refl t)
        exact ⟨l, n, st, tl, htl, heq⟩
      · obtain ⟨l, n, st, tl, htl, heq⟩ := hlast acc cs (by omega)
        exact ⟨l, n, st, tl, htl, heq⟩

/-- The window end-timestamps produced by the loop are exactly the close
points of the remaining samples, after those already in the accumulator. -/
theorem boundariesLoop_map_endTs :
    ∀ (rest : List (Nat × Nat)) (acc : List BlockWindow) (cs pt pp : Nat),
      (boundariesLoop acc cs pt pp rest).map BlockWindow.endTs =
        acc.map BlockWindow.endTs ++ closePts cs pt pp rest
  | [], acc, cs, pt, pp => by
      unfold boundariesLoop closePts
      by_cases h : cs ≠ pt
      · rw [if_pos h, if_pos h, List.map_append]
        rfl
      · rw [if_neg h, if_neg h, List.append_nil]
  | (t, p) :: rest, acc, cs, pt, pp => by
      unfold boundariesLoop closePts
      by_cases h : 2 * p < pp ∨ p = 0
      · rw [if_pos h, if_pos h, boundariesLoop_map_endTs rest _ t t p, List.map_append,
          List.append_assoc]
        rfl
      · rw [if_neg h, if_neg h]
        exact boundariesLoop_map_endTs rest acc cs t p

/-- Where a close point can come from: the head sample closed by a reset at
the very next sample, a middle sample closed by a reset at its successor,
or the final sample of the stream. -/
theorem closePts_cases :
    ∀ (rest : List (Nat × Nat)) (cs pt pp x : Nat), x ∈ closePts cs pt pp rest →
      (x = pt ∧ ∃ t2 p2 r2, rest = (t2, p2) :: r2 ∧ (2 * p2 < pp ∨ p2 = 0)) ∨
      (∃ pre pa tb pb post, rest = pre ++ (x, pa) :: (tb, pb) :: post ∧
        (2 * pb < pa ∨ pb = 0)) ∨
      (pt :: rest.map Prod.fst).getLast? = some x
  | [], cs, pt, pp, x, h => by
      unfold closePts at h
      split at h
      · right; right
        simp only [List.mem_singleton] at h
        subst h
        simp
      · exact absurd h (List.not_mem_nil x)
  | (t, p) :: rest, cs, pt, pp, x, h => by
      unfold closePts at h
      split at h
      case isTrue hr =>
        rcases List.mem_cons.mp h with hx | hx
        · exact Or.inl ⟨hx, t, p, rest, rfl, hr⟩
        · rcases closePts_cases rest t t p x hx with
            ⟨hxe, t2, p2, r2, hre, hcond⟩ | ⟨pre, pa, tb, pb, post, hre, hcond⟩ | hlast
          · exact Or.inr (Or.inl ⟨[], p, t2, p2, r2, by simp [hre, hxe], hcond⟩)
          · exact Or.inr (Or.inl ⟨(t, p) :: pre, pa, tb, pb, post,
              by rw [hre, List.cons_append], hcond⟩)
          · right; right
            rw [List.map_cons, List.getLast?_cons_cons]
            exact hlast
      case isFalse hr =>
        rcases closePts_cases rest cs t p x h with
          ⟨hxe, t2, p2, r2, hre, hcond⟩ | ⟨pre, pa, tb, pb, post, hre, hcond⟩ | hlast
        · exact Or.inr (Or.inl ⟨[], p, t2, p2, r2, by simp [hre, hxe], hcond⟩)
        · exact Or.inr (Or.inl ⟨(t, p) :: pre, pa, tb, pb, post,
            by rw [hre, List.cons_append], hcond⟩)
        · right; right
          rw [List.map_cons, List.getLast?_cons_cons]
          exact hlast

/-- A strictly increasing chain has no duplicates. -/
theorem chain'_lt_nodup (l : List Nat) (h : List.Chain' (· < ·) l) : l.Nodup :=
  (List.chain'_iff_pairwise.mp h).imp fun hab => Nat.ne_of_lt hab

/-- A strictly increasing chain restricted to a suffix after an append. -/
theorem chain'_append_right (l1 l2 : List Nat)
    (h : List.Chain' (· < ·) (l1 ++ l2)) : List.Chain' (· < ·) l2 := by
  induction l1 with
  | nil => exact h
  | cons a l1 ih => exact ih h.tail

/-- Along a strictly increasing chain the head is below the last element. -/
theorem chain'_lt_getLastQ :
    ∀ (l : List Nat) (x y : Nat), List.Chain' (· < ·) (x :: l) →
      l.getLast? = some y → x < y
  | [], x, y, _, h => Option.noConfusion h
  | [z], x, y, hch, h => by
      simp only [List.getLast?_singleton, Option.some.injEq] at h
      subst h
      exact (List.chain'_cons.mp hch).1
  | z :: w :: l, x, y, hch, h => by
      have h1 : x < z := (List.chain'_cons.mp hch).1
      have h2 : z < y :=
        chain'_lt_getLastQ (w :: l) z y (List.chain'_cons.mp hch).2
          (by simpa using h)
      omega

/-- In two decompositions of a duplicate-free-timestamp sample list at the
same timestamp, the pieces coincide. -/
theorem split_at_ts_unique :
    ∀ (l1 : List (Nat × Nat)) (x a : Nat) (r1 l2 : List (Nat × Nat)) (b : Nat)
      (r2 : List (Nat × Nat)),
      ((l1 ++ (x, a) :: r1).map Prod.fst).Nodup →
      l1 ++ (x, a) :: r1 = l2 ++ (x, b) :: r2 →
      l1 = l2 ∧ a = b ∧ r1 = r2
  | [], x, a, r1, [], b, r2, _, heq => by
      simp only [List.nil_append] at heq
      injection heq with h1 h2
      injection h1 with h3 h4
      exact ⟨rfl, h4, h2⟩
  | [], x, a, r1, (y, c) :: l2, b, r2, hnd, heq => by
      simp only [List.nil_append, List.cons_append] at heq
      injection heq with h1 h2
      exfalso
      simp only [List.nil_append, List.map_cons, List.nodup_cons] at hnd
      exact hnd.1 (by rw [h2]; simp)
  | (y, c) :: l1, x, a, r1, [], b, r2, hnd, heq => by
      simp only [List.cons_append, List.nil_append] at heq
      injection heq with h1 h2
      injection h1 with h3 h4
      exfalso
      simp only [List.cons_append, List.map_cons, List.nodup_cons] at hnd
      exact hnd.1 (by rw [h3]; simp)
  | (y, c) :: l1, x, a, r1, (z, d) :: l2, b, r2, hnd, heq => by
      simp only [List.cons_append] at heq
      injection heq with h1 h2
      simp only [List.cons_append, List.map_cons, List.nodup_cons] at hnd
      obtain ⟨he, hb, hr⟩ := split_at_ts_unique l1 x a r1 l2 b r2 hnd.2 h2
      exact ⟨by rw [h1, he], hb, hr⟩

/-! ### Claim C5 -/

/-- Claim C5: for every sample stream with strictly increasing timestamps
and every adjacent pair of samples, the reconstructor produces a
BlockWindow closing at the earlier sample's timestamp — the observable mark
of a boundary detected at the later sample — exactly when the later
sample's counter is strictly below half the earlier sample's counter or is
zero; and on the counter sequence 5, 8, 10, 2, 6, 9 at evenly spaced
timestamps exactly two BlockWindows are produced, the first ending at
sample 2 and the second running from sample 3 to sample 5. -/
theorem claim5_theorem :
    (∀ (s1 : List (Nat × Nat)) (ta pa tb pb : Nat) (s2 : List (Nat × Nat)),
      List.Chain' (· < ·) ((s1 ++ (ta, pa) :: (tb, pb) :: s2).map Prod.fst) →
      ((∃ w ∈ calculate_block_boundaries (s1 ++ (ta, pa) :: (tb, pb) :: s2),
          w.endTs = ta) ↔
        (2 * pb < pa ∨ pb = 0))) ∧
    (∀ t d : Nat, 0 < d →
      calculate_block_boundaries
        [(t, 5), (t + d, 8), (t + 2 * d, 10), (t + 3 * d, 2), (t + 4 * d, 6),
         (t + 5 * d, 9)] =
        [⟨0, t, t + 2 * d⟩, ⟨1, t + 3 * d, t + 5 * d⟩]) := by
  constructor
  · intro s1 ta pa tb pb s2 hch
    have hnd : ((s1 ++ (ta, pa) :: (tb, pb) :: s2).map Prod.fst).Nodup :=
      chain'_lt_nodup _ hch
    constructor
    · rintro ⟨w, hw, hend⟩
      cases s1 with
      | nil =>
          have hmem : ta ∈ (boundariesLoop [] ta ta pa
              ((tb, pb) :: s2)).map BlockWindow.endTs :=
            List.mem_map.mpr ⟨w, hw, hend⟩
          rw [boundariesLoop_map_endTs] at hmem
          simp only [List.map_nil, List.nil_append] at hmem
          simp only [List.nil_append, List.map_cons, List.nodup_cons] at hnd
          rcases closePts_cases ((tb, pb) :: s2) ta ta pa ta hmem with
            ⟨_, t2, p2, r2, hre, hcond⟩ |
            ⟨pre, pa', tb', pb', post, hre, hcond⟩ | hlast
          · injection hre with h1 h2
            injection h1 with h3 h4
            rw [h4]
            exact hcond
          · exfalso
            have h1 : ta ∈ List.map Prod.fst ((tb, pb) :: s2) := by
              rw [hre]; simp
            exact hnd.1 (by simpa using h1)
          · exfalso
            rw [List.map_cons, List.getLast?_cons_cons] at hlast
            have hch2 : List.Chain' (· < ·) (ta :: tb :: List.map Prod.fst s2) := by
              simpa using hch
            exact absurd (chain'_lt_getLastQ _ ta ta hch2 hlast) (lt_irrefl ta)
      | cons hd s1' =>
          obtain ⟨t0, p0⟩ := hd
          have hmem : ta ∈ (boundariesLoop [] t0 t0 p0
              (s1' ++ (ta, pa) :: (tb, pb) :: s2)).map BlockWindow.endTs :=
            List.mem_map.mpr ⟨w, hw, hend⟩
          rw [boundariesLoop_map_endTs] at hmem
          simp only [List.map_nil, List.nil_append] at hmem
          simp only [List.cons_append, List.map_cons, List.nodup_cons] at hnd
          rcases closePts_cases (s1' ++ (ta, pa) :: (tb, pb) :: s2) t0 t0 p0 ta hmem with
            ⟨hta, t2, p2, r2, hre, hcond⟩ |
            ⟨pre, pa', tb', pb', post, hre, hcond⟩ | hlast
          · exfalso
            have h1 : ta ∈ List.map Prod.fst (s1' ++ (ta, pa) :: (tb, pb) :: s2) := by
              simp
            have h2 := hnd.1
            rw [← hta] at h2
            exact h2 h1
          · obtain ⟨hpre, hpa, hrest⟩ :=
              split_at_ts_unique s1' ta pa ((tb, pb) :: s2) pre pa'
                ((tb', pb') :: post) hnd.2 hre
            injection hrest with h1 h2
            injection h1 with h3 h4
            rw [hpa, h4]
            exact hcond
          · exfalso
            rw [List.map_append, List.map_cons, List.map_cons,
              ← List.cons_append, List.getLast?_append_cons,
              List.getLast?_cons_cons] at hlast
            have hch2 : List.Chain' (· < ·) (ta :: tb :: List.map Prod.fst s2) := by
              have h0 : List.Chain' (· < ·)
                  (List.map Prod.fst s1' ++ ta :: tb :: List.map Prod.fst s2) := by
                have h1 := hch
                simp only [List.cons_append, List.map_cons, List.map_append] at h1
                exact h1.tail
              exact chain'_append_right _ _ h0
            exact absurd (chain'_lt_getLastQ _ ta ta hch2 hlast) (lt_irrefl ta)
    · intro hreset
      cases s1 with
      | nil =>
          show ∃ w ∈ boundariesLoop [] ta ta pa ((tb, pb) :: s2), w.endTs = ta
          unfold boundariesLoop
          rw [if_pos hreset]
          have hmem : (⟨0, ta, ta⟩ : BlockWindow) ∈
              ([] : List BlockWindow) ++ [(⟨0, ta, ta⟩ : BlockWindow)] :=
            List.mem_append_right _ (List.mem_singleton.mpr rfl)
          exact ⟨_, mem_boundariesLoop_of_mem_acc _ _ _ _ _ _ hmem, rfl⟩
      | cons hd s1' =>
          obtain ⟨t0, p0⟩ := hd
          show ∃ w ∈ boundariesLoop [] t0 t0 p0
              (s1' ++ (ta, pa) :: (tb, pb) :: s2), w.endTs = ta
          exact resetClose_loop ta pa tb pb hreset s1' s2 [] t0 t0 p0
  · intro t d hd
    have hne : t + 3 * d ≠ t + 5 * d := by omega
    simp [calculate_block_boundaries, boundariesLoop, hne]

/-- Concrete instance of C5: on the samples 0..50 with counters
5, 8, 10, 2, 6, 9, the boundary biconditional holds at the 10-to-2 drop and
the output is exactly the two windows. -/
theorem claim5_witness :
    ((∃ w ∈ calculate_block_boundaries
        [(0, 5), (10, 8), (20, 10), (30, 2), (40, 6), (50, 9)], w.endTs = 20) ↔
      (2 * 2 < 10 ∨ 2 = 0)) ∧
    calculate_block_boundaries [(0, 5), (10, 8), (20, 10), (30, 2), (40, 6), (50, 9)] =
      [⟨0, 0, 20⟩, ⟨1, 30, 50⟩] := by
  constructor
  · have h := claim5_theorem.1 [(0, 5), (10, 8)] 20 10 30 2 [(40, 6), (50, 9)]
      (by simp [List.chain'_cons])
    simpa using h
  · have h := claim5_theorem.2 0 10 (by decide)
    simpa using h

/-! ### Claim C6 -/

/-- Claim C6, counterexample: on samples (0, 10), (1, 0) the reset at the
second sample closes a window ending at timestamp 0 and no trailing window
is emitted, so no produced window ends at the last sample's timestamp 1. -/
theorem claim6_counterexample :
    calculate_block_boundaries [(0, 10), (1, 0)] = [⟨0, 0, 0⟩] ∧
    ∀ w ∈ calculate_block_boundaries [(0, 10), (1, 0)], w.endTs ≠ 1 :=
  ⟨by decide, by decide⟩

/-- Claim C6 (amended: each detected reset closes the current BlockWindow
with end timestamp equal to the sample immediately before the reset; and
the final BlockWindow ends at the last sample's timestamp PROVIDED the
last sample does not itself trigger a reset — when it does, as in the
counterexample, the trailing window is skipped because its start would
equal the last timestamp, and the last sample is covered by no window). -/
theorem claim6_amended :
    (∀ (s1 s2 : List (Nat × Nat)) (ta pa tb pb : Nat),
      2 * pb < pa ∨ pb = 0 →
      ∃ w ∈ calculate_block_boundaries (s1 ++ (ta, pa) :: (tb, pb) :: s2),
        w.endTs = ta) ∧
    (∀ samples : List (Nat × Nat), 2 ≤ samples.length →
      List.Chain' (fun a b => a.1 < b.1) samples →
      lastSampleNoReset samples →
      ∃ l n st tl, samples.getLast? = some tl ∧
        calculate_block_boundaries samples = l ++ [⟨n, st, tl.1⟩]) := by
  constructor
  · intro s1 s2 ta pa tb pb hreset
    match s1 with
    | [] =>
        show ∃ w ∈ boundariesLoop [] ta ta pa ((tb, pb) :: s2), w.endTs = ta
        unfold boundariesLoop
        rw [if_pos hreset]
        have hmem : (⟨0, ta, ta⟩ : BlockWindow) ∈
            ([] : List BlockWindow) ++ [(⟨0, ta, ta⟩ : BlockWindow)] :=
          List.mem_append_right _ (List.mem_singleton.mpr rfl)
        exact ⟨_, mem_boundariesLoop_of_mem_acc _ _ _ _ _ _ hmem, rfl⟩
    | (t0, p0) :: s1' =>
        show ∃ w ∈ boundariesLoop [] t0 t0 p0 (s1' ++ (ta, pa) :: (tb, pb) :: s2),
          w.endTs = ta
        exact resetClose_loop ta pa tb pb hreset s1' s2 [] t0 t0 p0
  · intro samples hlen hch hnr
    match samples with
    | [] => simp at hlen
    | [_] => simp at hlen
    | (t0, p0) :: (t1, pp1) :: rest =>
        have hch0 : List.Chain' (· < ·) (t0 :: ((t1, pp1) :: rest).map Prod.fst) := by
          have h0 : List.Chain' (· < ·)
              (((t0, p0) :: (t1, pp1) :: rest).map Prod.fst) := by
            rw [List.chain'_map]
            exact hch
          exact h0
        obtain ⟨l, n, st, tl, htl, heq⟩ :=
          lastWin_loop ((t1, pp1) :: rest) [] t0 t0 p0 (List.cons_ne_nil _ _)
            (Nat.le_refl t0) hch0 hnr
        refine ⟨l, n, st, tl, ?_, heq⟩
        rw [List.getLast?_cons_cons]
        exact htl

/-- Concrete instances of the amended C6 statement: the reset at (1, 0)
closes a window ending at timestamp 0, and on (0, 5), (1, 8) — whose last
sample triggers no reset — the final window ends at the last timestamp. -/
theorem claim6_witness :
    (∃ w ∈ calculate_block_boundaries ([] ++ (0, 10) :: (1, 0) :: []), w.endTs = 0) ∧
    (∃ l n st tl, ([(0, 5), (1, 8)] : List (Nat × Nat)).getLast? = some tl ∧
      calculate_block_boundaries [(0, 5), (1, 8)] = l ++ [⟨n, st, tl.1⟩]) :=
  ⟨claim6_amended.1 [] [] 0 10 1 0 (by decide),
   claim6_amended.2 [(0, 5), (1, 8)] (by decide)
     (List.chain'_cons.mpr ⟨by decide, List.chain'_singleton _⟩)
     (by show ¬ (2 * 8 < 5 ∨ (8 : Nat) = 0); decide)⟩

/-! ### Claim C8 -/

/-- Run 1 of the C8 scenario: blocks 100, 101, 103. -/
def c8Run1 : List (RunKey × BEntry) :=
  [((0, false), ⟨0, 1, 1, 100, none, none⟩),
   ((1, false), ⟨1, 1, 1, 101, none, none⟩),
   ((2, false), ⟨2, 1, 1, 103, none, none⟩)]

/-- Run 2 of the C8 scenario: blocks 100, 103, 104. -/
def c8Run2 : List (RunKey × BEntry) :=
  [((3, false), ⟨3, 1, 1, 100, none, none⟩),
   ((4, false), ⟨4, 1, 1, 103, none, none⟩),
   ((5, false), ⟨5, 1, 1, 104, none, none⟩)]

/-- Claim C8: the common-block list is sorted ascending, duplicate-free,
holds exactly the block numbers present in both runs, and on runs holding
blocks 100, 101, 103 and 100, 103, 104 it is exactly 100, 103. -/
theorem claim8_theorem :
    (∀ r1 r2 : List (RunKey × BEntry),
      (get_common_block_numbers r1 r2).Sorted (· ≤ ·) ∧
      (get_common_block_numbers r1 r2).Nodup ∧
      (∀ n, n ∈ get_common_block_numbers r1 r2 ↔
        ((∃ p ∈ r1, p.2.block_number = n) ∧ ∃ p ∈ r2, p.2.block_number = n))) ∧
    get_common_block_numbers c8Run1 c8Run2 = [100, 103] := by
  constructor
  · intro r1 r2
    refine ⟨?_, ?_, ?_⟩
    · rw [List.Sorted, ← List.chain'_iff_pairwise]
      exact chain'_sortByKey (fun n => n) _
    · exact ((sortByKey_perm (fun n => n) _).nodup_iff).mpr
        (((r1.map fun p => p.2.block_number).nodup_dedup).filter _)
    · intro n
      show n ∈ sortByKey (fun n => n) _ ↔ _
      rw [mem_sortByKey, List.mem_filter, List.mem_dedup, List.mem_map]
      simp only [decide_eq_true_eq, List.mem_dedup, List.mem_map]
  · decide

/-! ### Claim C10 -/

/-- Claim C10: with no boundary supplied and exactly one BlockAdded line
for the target block, asking for the second run returns the same non-empty
line list as asking for the first run. -/
theorem claim10_theorem (lines : List LLine) (bn : Nat)
    (h : (addedLines bn lines).length = 1) :
    extract_log_lines_for_block lines bn false none =
      extract_log_lines_for_block lines bn true none ∧
    extract_log_lines_for_block lines bn false none ≠ [] := by
  have hlen : (sortByKey Prod.fst (addedLines bn lines)).length = 1 := by
    rw [sortByKey_length]; exact h
  obtain ⟨a, ha⟩ := List.length_eq_one.mp hlen
  constructor
  · simp only [extract_log_lines_for_block]
    rw [ha]
    rfl
  · simp only [extract_log_lines_for_block]
    rw [ha]
    show (pickProof a.1 _).toList ++ (pickRoot a.1 _).toList ++ [a.2] ≠ []
    simp

/-- Concrete instance of C10 on a one-line file. -/
theorem claim10_witness :
    extract_log_lines_for_block [⟨some 10000000, .added 100, 3⟩] 100 false none =
      extract_log_lines_for_block [⟨some 10000000, .added 100, 3⟩] 100 true none ∧
    extract_log_lines_for_block [⟨some 10000000, .added 100, 3⟩] 100 false none ≠ [] :=
  claim10_theorem _ 100 (by decide)

/-! ### Claim C7 -/

theorem pickProof_eq_none_iff (ats : Nat) :
    ∀ l : List (Nat × LLine), pickProof ats l = none ↔
      ∀ p ∈ l, ¬ (p.1 ≤ ats ∧ ats ≤ p.1 + twoSec)
  | [] => by simp [pickProof]
  | (t, x) :: rest => by
      unfold pickProof
      split
      next hq =>
        constructor
        · intro h; cases h
        · intro h; exact absurd hq (h (t, x) (List.mem_cons_self _ _))
      next hq =>
        rw [pickProof_eq_none_iff ats rest]
        constructor
        · intro h p hp
          rcases List.mem_cons.mp hp with hp1 | hp1
          · subst hp1; exact hq
          · exact h p hp1
        · intro h p hp; exact h p (List.mem_cons_of_mem _ hp)

theorem pickRoot_eq_none_iff (ats : Nat) :
    ∀ l : List (Nat × LLine), pickRoot ats l = none ↔
      ∀ p ∈ l, ¬ (absDiff ats p.1 ≤ fiveSec)
  | [] => by simp [pickRoot]
  | (t, x) :: rest => by
      unfold pickRoot
      split
      next hq =>
        constructor
        · intro h; cases h
        · intro h; exact absurd hq (h (t, x) (List.mem_cons_self _ _))
      next hq =>
        rw [pickRoot_eq_none_iff ats rest]
        constructor
        · intro h p hp
          rcases List.mem_cons.mp hp with hp1 | hp1
          · subst hp1; exact hq
          · exact h p hp1
        · intro h p hp; exact h p (List.mem_cons_of_mem _ hp)

theorem pickProof_ne_none_iff (ats : Nat) (l : List (Nat × LLine)) :
    pickProof ats l ≠ none ↔ ∃ p ∈ l, p.1 ≤ ats ∧ ats ≤ p.1 + twoSec := by
  rw [Ne, pickProof_eq_none_iff ats l]
  constructor
  · intro h
    by_contra hc
    exact h fun p hp hq => hc ⟨p, hp, hq⟩
  · rintro ⟨p, hp, hq⟩ h
    exact h p hp hq

theorem pickRoot_ne_none_iff (ats : Nat) (l : List (Nat × LLine)) :
    pickRoot ats l ≠ none ↔ ∃ p ∈ l, absDiff ats p.1 ≤ fiveSec := by
  rw [Ne, pickRoot_eq_none_iff ats l]
  constructor
  · intro h
    by_contra hc
    exact h fun p hp hq => hc ⟨p, hp, hq⟩
  · rintro ⟨p, hp, hq⟩ h
    exact h p hp hq

/-- Claim C7: when no BlockAdded line for the block exists the selector
returns the empty list; and whenever a BlockAdded line is chosen, the
result is exactly optional-proof-summary, then optional-root-calculation,
then the BlockAdded line — whatever the file order — where the proof line
is present exactly when some ProofsProcessed line lies 0 to 2 seconds
before the chosen line and the root line exactly when some root line lies
within 5 seconds either way. -/
theorem claim7_theorem (lines : List LLine) (bn : Nat) (isFirst : Bool)
    (boundary : Option Nat) :
    (addedLines bn lines = [] →
      extract_log_lines_for_block lines bn isFirst boundary = []) ∧
    (∀ ats al,
      chooseAdded isFirst boundary (sortByKey Prod.fst (addedLines bn lines)) =
        some (ats, al) →
      extract_log_lines_for_block lines bn isFirst boundary =
        (pickProof ats (sortByKey Prod.fst (proofLines lines))).toList ++
          (pickRoot ats (sortByKey Prod.fst (rootLines bn lines))).toList ++ [al] ∧
      (pickProof ats (sortByKey Prod.fst (proofLines lines)) ≠ none ↔
        ∃ p ∈ proofLines lines, p.1 ≤ ats ∧ ats ≤ p.1 + twoSec) ∧
      (pickRoot ats (sortByKey Prod.fst (rootLines bn lines)) ≠ none ↔
        ∃ p ∈ rootLines bn lines, absDiff ats p.1 ≤ fiveSec)) := by
  constructor
  · intro h
    simp only [extract_log_lines_for_block]
    rw [h]
    cases boundary with
    | none => rfl
    | some b => rfl
  · intro ats al hch
    simp only [extract_log_lines_for_block]
    rw [hch]
    refine ⟨rfl, ?_, ?_⟩
    · rw [pickProof_ne_none_iff]
      constructor
      · rintro ⟨p, hp, hq⟩
        exact ⟨p, (mem_sortByKey _ _ _).mp hp, hq⟩
      · rintro ⟨p, hp, hq⟩
        exact ⟨p, (mem_sortByKey _ _ _).mpr hp, hq⟩
    · rw [pickRoot_ne_none_iff]
      constructor
      · rintro ⟨p, hp, hq⟩
        exact ⟨p, (mem_sortByKey _ _ _).mp hp, hq⟩
      · rintro ⟨p, hp, hq⟩
        exact ⟨p, (mem_sortByKey _ _ _).mpr hp, hq⟩

/-- The C7 scenario file: the root-calculation line is stored BEFORE the
proof-summary line in raw order; both are within their windows of the
BlockAdded line at 10 s. -/
def c7Lines : List LLine :=
  [⟨some 9000000, .root 100, 1⟩, ⟨some 9500000, .proofsLine, 2⟩,
   ⟨some 10000000, .added 100, 3⟩]

/-- Concrete instance of C7 on `c7Lines`. -/
theorem claim7_witness :
    extract_log_lines_for_block c7Lines 100 true none =
      (pickProof 10000000 (sortByKey Prod.fst (proofLines c7Lines))).toList ++
        (pickRoot 10000000 (sortByKey Prod.fst (rootLines 100 c7Lines))).toList ++
        [⟨some 10000000, .added 100, 3⟩] ∧
    (pickProof 10000000 (sortByKey Prod.fst (proofLines c7Lines)) ≠ none ↔
      ∃ p ∈ proofLines c7Lines, p.1 ≤ 10000000 ∧ 10000000 ≤ p.1 + twoSec) ∧
    (pickRoot 10000000 (sortByKey Prod.fst (rootLines 100 c7Lines)) ≠ none ↔
      ∃ p ∈ rootLines 100 c7Lines, absDiff 10000000 p.1 ≤ fiveSec) :=
  (claim7_theorem c7Lines 100 true none).2 10000000
    ⟨some 10000000, .added 100, 3⟩ (by decide)

/-! ### Claim C4: the Run-Splitter characterisation -/

/-- The run-1 component of one splitter step: the earliest occurrence of
the bucket (by sorted timestamp) is inserted with an ordinary key. -/
def splitStep1 (r : List (RunKey × BEntry)) (bucket : Nat × List (Nat × BEntry)) :
    List (RunKey × BEntry) :=
  match sortByKey Prod.fst bucket.2 with
  | [] => r
  | (ts, e) :: _ => insertAssoc r (ts, false) e

/-- The run-2 component of one splitter step: a lone occurrence is
re-inserted under a dup-marked key, otherwise the second occurrence is
inserted. -/
def splitStep2 (r : List (RunKey × BEntry)) (bucket : Nat × List (Nat × BEntry)) :
    List (RunKey × BEntry) :=
  match sortByKey Prod.fst bucket.2 with
  | [] => r
  | [(ts, e)] => insertAssoc r (ts, true) e
  | _ :: (ts2, e2) :: _ => insertAssoc r (ts2, false) e2

theorem splitStep_eq (acc : List (RunKey × BEntry) × List (RunKey × BEntry))
    (bucket : Nat × List (Nat × BEntry)) :
    splitStep acc bucket = (splitStep1 acc.1 bucket, splitStep2 acc.2 bucket) := by
  unfold splitStep splitStep1 splitStep2
  cases h : sortByKey Prod.fst bucket.2 with
  | nil => rfl
  | cons p tl =>
      obtain ⟨ts, e⟩ := p
      cases tl with
      | nil => rfl
      | cons q tl2 =>
          obtain ⟨ts2, e2⟩ := q
          rfl

theorem foldl_splitStep :
    ∀ (bs : List (Nat × List (Nat × BEntry))) (r1 r2 : List (RunKey × BEntry)),
      bs.foldl splitStep (r1, r2) = (bs.foldl splitStep1 r1, bs.foldl splitStep2 r2)
  | [], _, _ => rfl
  | b :: bs, r1, r2 => by
      simp only [List.foldl_cons]
      rw [splitStep_eq]
      exact foldl_splitStep bs _ _

theorem insertAssoc_of_not_mem {κ α : Type} [DecidableEq κ] :
    ∀ (m : List (κ × α)) (k : κ) (v : α), (∀ p ∈ m, p.1 ≠ k) →
      insertAssoc m k v = m ++ [(k, v)]
  | [], _, _, _ => rfl
  | (k', v') :: rest, k, v, h => by
      unfold insertAssoc
      rw [if_neg (h (k', v') (List.mem_cons_self _ _))]
      rw [insertAssoc_of_not_mem rest k v (fun p hp => h p (List.mem_cons_of_mem _ hp))]
      rfl

/-- The run-1 insertions contributed bucket by bucket. -/
def runContrib1 (bs : List (Nat × List (Nat × BEntry))) : List (RunKey × BEntry) :=
  bs.filterMap fun bkt =>
    match sortByKey Prod.fst bkt.2 with
    | [] => none
    | (ts, e) :: _ => some ((ts, false), e)

/-- The run-2 insertions contributed bucket by bucket. -/
def runContrib2 (bs : List (Nat × List (Nat × BEntry))) : List (RunKey × BEntry) :=
  bs.filterMap fun bkt =>
    match sortByKey Prod.fst bkt.2 with
    | [] => none
    | [(ts, e)] => some ((ts, true), e)
    | _ :: (ts2, e2) :: _ => some ((ts2, false), e2)

theorem foldl_splitStep1_eq :
    ∀ (bs : List (Nat × List (Nat × BEntry))) (r : List (RunKey × BEntry)),
      ((r ++ runContrib1 bs).map Prod.fst).Nodup →
      bs.foldl splitStep1 r = r ++ runContrib1 bs
  | [], r, _ => by simp [runContrib1]
  | bkt :: bs, r, hnd => by
      simp only [List.foldl_cons]
      cases hs : sortByKey Prod.fst bkt.2 with
      | nil =>
          have hstep : splitStep1 r bkt = r := by
            unfold splitStep1
            rw [hs]
          have hc : runContrib1 (bkt :: bs) = runContrib1 bs := by
            unfold runContrib1
            rw [List.filterMap_cons]
            rw [hs]
          rw [hstep, hc]
          rw [hc] at hnd
          exact foldl_splitStep1_eq bs r hnd
      | cons p tl =>
          have hstep : splitStep1 r bkt = insertAssoc r (p.1, false) p.2 := by
            unfold splitStep1
            rw [hs]
          have hc : runContrib1 (bkt :: bs) = ((p.1, false), p.2) :: runContrib1 bs := by
            unfold runContrib1
            rw [List.filterMap_cons]
            rw [hs]
          rw [hc] at hnd
          have hfresh : ∀ q ∈ r, q.1 ≠ (p.1, false) := by
            intro q hq hqe
            have h1 : q.1 ∈ r.map Prod.fst ++
                ((p.1, false) :: (runContrib1 bs).map Prod.fst) :=
              List.mem_append_left _ (List.mem_map.mpr ⟨q, hq, rfl⟩)
            have h2 := hnd
            rw [List.map_append] at h2
            rcases (List.nodup_append.mp h2) with ⟨-, -, hdisj⟩
            exact hdisj (List.mem_map.mpr ⟨q, hq, rfl⟩)
              (by rw [List.map_cons]; exact hqe ▸ List.mem_cons_self _ _)
          rw [hstep, insertAssoc_of_not_mem r _ _ hfresh]
          have hnd' : (((r ++ [((p.1, false), p.2)]) ++ runContrib1 bs).map Prod.fst).Nodup := by
            rw [List.append_assoc, List.singleton_append]
            exact hnd
          rw [foldl_splitStep1_eq bs (r ++ [((p.1, false), p.2)]) hnd']
          rw [List.append_assoc, List.singleton_append, hc]

theorem foldl_splitStep2_eq :
    ∀ (bs : List (Nat × List (Nat × BEntry))) (r : List (RunKey × BEntry)),
      ((r ++ runContrib2 bs).map Prod.fst).Nodup →
      bs.foldl splitStep2 r = r ++ runContrib2 bs
  | [], r, _ => by simp [runContrib2]
  | bkt :: bs, r, hnd => by
      simp only [List.foldl_cons]
      rcases hshape : sortByKey Prod.fst bkt.2 with - | ⟨p, - | ⟨q, tl2⟩⟩
      · have hstep : splitStep2 r bkt = r := by
          unfold splitStep2
          rw [hshape]
        have hc : runContrib2 (bkt :: bs) = runContrib2 bs := by
          unfold runContrib2
          rw [List.filterMap_cons]
          rw [hshape]
        rw [hstep]
        rw [hc] at hnd ⊢
        exact foldl_splitStep2_eq bs r hnd
      · have hstep : splitStep2 r bkt = insertAssoc r (p.1, true) p.2 := by
          unfold splitStep2
          rw [hshape]
        have hc : runContrib2 (bkt :: bs) = ((p.1, true), p.2) :: runContrib2 bs := by
          unfold runContrib2
          rw [List.filterMap_cons]
          rw [hshape]
        rw [hc] at hnd
        have hfresh : ∀ x ∈ r, x.1 ≠ (p.1, true) := by
          intro x hx hxe
          have h2 := hnd
          rw [List.map_append] at h2
          rcases (List.nodup_append.mp h2) with ⟨-, -, hdisj⟩
          exact hdisj (List.mem_map.mpr ⟨x, hx, rfl⟩)
            (by rw [List.map_cons]; exact hxe ▸ List.mem_cons_self _ _)
        rw [hstep, insertAssoc_of_not_mem r _ _ hfresh]
        have hnd' : (((r ++ [((p.1, true), p.2)]) ++ runContrib2 bs).map Prod.fst).Nodup := by
          rw [List.append_assoc, List.singleton_append]
          exact hnd
        rw [foldl_splitStep2_eq bs (r ++ [((p.1, true), p.2)]) hnd']
        rw [List.append_assoc, List.singleton_append, hc]
      · have hstep : splitStep2 r bkt = insertAssoc r (q.1, false) q.2 := by
          unfold splitStep2
          rw [hshape]
        have hc : runContrib2 (bkt :: bs) = ((q.1, false), q.2) :: runContrib2 bs := by
          unfold runContrib2
          rw [List.filterMap_cons]
          rw [hshape]
        rw [hc] at hnd
        have hfresh : ∀ x ∈ r, x.1 ≠ (q.1, false) := by
          intro x hx hxe
          have h2 := hnd
          rw [List.map_append] at h2
          rcases (List.nodup_append.mp h2) with ⟨-, -, hdisj⟩
          exact hdisj (List.mem_map.mpr ⟨x, hx, rfl⟩)
            (by rw [List.map_cons]; exact hxe ▸ List.mem_cons_self _ _)
        rw [hstep, insertAssoc_of_not_mem r _ _ hfresh]
        have hnd' : (((r ++ [((q.1, false), q.2)]) ++ runContrib2 bs).map Prod.fst).Nodup := by
          rw [List.append_assoc, List.singleton_append]
          exact hnd
        rw [foldl_splitStep2_eq bs (r ++ [((q.1, false), q.2)]) hnd']
        rw [List.append_assoc, List.singleton_append, hc]

theorem lookupBucket_bucketAdd {α : Type} :
    ∀ (b : List (Nat × List α)) (k k' : Nat) (v : α),
      lookupBucket k (bucketAdd k' v b) =
        if k' = k then lookupBucket k b ++ [v] else lookupBucket k b
  | [], k, k', v => by
      by_cases h : k' = k
      · simp [bucketAdd, lookupBucket, h]
      · simp [bucketAdd, lookupBucket, h]
  | (m, vs) :: rest, k, k', v => by
      unfold bucketAdd
      by_cases hm : m = k'
      · subst hm
        rw [if_pos rfl]
        by_cases hk : m = k
        · subst hk
          simp [lookupBucket]
        · simp [lookupBucket, hk]
      · rw [if_neg hm]
        by_cases hk : m = k
        · subst hk
          have hm' : k' ≠ m := fun h => hm h.symm
          simp [lookupBucket, hm']
        · have IH := lookupBucket_bucketAdd rest k k' v
          simp [lookupBucket, hk, IH]

theorem lookupBucket_groupOcc_aux :
    ∀ (md : List (Nat × BEntry)) (b : List (Nat × List (Nat × BEntry))) (n : Nat),
      lookupBucket n (md.foldl (fun b p => bucketAdd p.2.block_number p b) b) =
        lookupBucket n b ++ md.filter (fun p => decide (p.2.block_number = n))
  | [], b, n => by simp
  | p :: md, b, n => by
      simp only [List.foldl_cons]
      rw [lookupBucket_groupOcc_aux md _ n]
      rw [lookupBucket_bucketAdd]
      rw [List.filter_cons]
      by_cases h : p.2.block_number = n
      · rw [if_pos h]
        simp [h, List.append_assoc]
      · rw [if_neg h]
        simp [h]

theorem lookupBucket_groupOcc (md : List (Nat × BEntry)) (n : Nat) :
    lookupBucket n (groupOcc md) =
      md.filter (fun p => decide (p.2.block_number = n)) := by
  have h := lookupBucket_groupOcc_aux md [] n
  simpa [lookupBucket] using h

theorem bucketAdd_inv {α : Type} (keyf : α → Nat) :
    ∀ (b : List (Nat × List α)) (k : Nat) (v : α),
      (∀ bkt ∈ b, ∀ x ∈ bkt.2, keyf x = bkt.1) → keyf v = k →
      ∀ bkt ∈ bucketAdd k v b, ∀ x ∈ bkt.2, keyf x = bkt.1
  | [], k, v, hb, hv => by
      intro bkt hbkt x hx
      simp only [bucketAdd, List.mem_singleton] at hbkt
      subst hbkt
      simp only [List.mem_singleton] at hx
      subst hx
      exact hv
  | (m, vs) :: rest, k, v, hb, hv => by
      intro bkt hbkt x hx
      unfold bucketAdd at hbkt
      split at hbkt
      next hm =>
        rcases List.mem_cons.mp hbkt with h1 | h1
        · subst h1
          rcases List.mem_append.mp hx with h2 | h2
          · exact hb (m, vs) (List.mem_cons_self _ _) x h2
          · rw [List.mem_singleton] at h2
            subst h2
            exact hv.trans hm.symm
        · exact hb bkt (List.mem_cons_of_mem _ h1) x hx
      next hm =>
        rcases List.mem_cons.mp hbkt with h1 | h1
        · subst h1
          exact hb (m, vs) (List.mem_cons_self _ _) x hx
        · exact bucketAdd_inv keyf rest k v
            (fun b' hb' => hb b' (List.mem_cons_of_mem _ hb')) hv bkt h1 x hx

theorem groupOcc_inv_aux :
    ∀ (md : List (Nat × BEntry)) (b : List (Nat × List (Nat × BEntry))),
      (∀ bkt ∈ b, ∀ p ∈ bkt.2, p.2.block_number = bkt.1) →
      ∀ bkt ∈ md.foldl (fun b p => bucketAdd p.2.block_number p b) b, ∀ p ∈ bkt.2,
        p.2.block_number = bkt.1
  | [], _, hb => hb
  | p :: md, b, hb => by
      simp only [List.foldl_cons]
      exact groupOcc_inv_aux md _
        (bucketAdd_inv (fun q => q.2.block_number) b _ p hb rfl)

theorem groupOcc_inv (md : List (Nat × BEntry)) :
    ∀ bkt ∈ groupOcc md, ∀ p ∈ bkt.2, p.2.block_number = bkt.1 :=
  groupOcc_inv_aux md [] (by intro bkt h; cases h)

theorem bucketAdd_keys_spec {α : Type} :
    ∀ (b : List (Nat × List α)) (k : Nat) (v : α),
      ((b.map Prod.fst).Nodup → ((bucketAdd k v b).map Prod.fst).Nodup) ∧
      (∀ m, m ∈ (bucketAdd k v b).map Prod.fst ↔ m ∈ b.map Prod.fst ∨ m = k)
  | [], k, v => by
      constructor
      · intro _
        simp [bucketAdd]
      · intro m
        simp [bucketAdd]
  | (m0, vs) :: rest, k, v => by
      unfold bucketAdd
      by_cases hm : m0 = k
      · subst hm
        rw [if_pos rfl]
        constructor
        · intro h
          simpa using h
        · intro m
          simp only [List.map_cons, List.mem_cons]
          constructor
          · intro h1
            exact Or.inl h1
          · intro h1
            rcases h1 with h1 | h1
            · exact h1
            · exact Or.inl h1
      · rw [if_neg hm]
        have IH := bucketAdd_keys_spec rest k v
        constructor
        · intro h
          simp only [List.map_cons] at h ⊢
          rcases List.nodup_cons.mp h with ⟨hm0, hrest⟩
          refine List.nodup_cons.mpr ⟨?_, IH.1 hrest⟩
          intro hmem
          rcases (IH.2 m0).mp hmem with h1 | h1
          · exact hm0 h1
          · exact hm h1
        · intro m
          simp only [List.map_cons, List.mem_cons]
          rw [IH.2 m]
          tauto

theorem groupOcc_keys_nodup_aux :
    ∀ (md : List (Nat × BEntry)) (b : List (Nat × List (Nat × BEntry))),
      ((b.map Prod.fst).Nodup) →
      (((md.foldl (fun b p => bucketAdd p.2.block_number p b) b).map Prod.fst).Nodup)
  | [], _, h => h
  | p :: md, b, h => by
      simp only [List.foldl_cons]
      exact groupOcc_keys_nodup_aux md _ ((bucketAdd_keys_spec b _ p).1 h)

theorem groupOcc_keys_nodup (md : List (Nat × BEntry)) :
    ((groupOcc md).map Prod.fst).Nodup :=
  groupOcc_keys_nodup_aux md [] List.nodup_nil

/-- All timestamps stored in the buckets, in bucket order. -/
def bucketTs (bs : List (Nat × List (Nat × BEntry))) : List Nat :=
  (bs.map fun bkt => bkt.2.map Prod.fst).flatten

theorem bucketTs_bucketAdd :
    ∀ (b : List (Nat × List (Nat × BEntry))) (k : Nat) (v : Nat × BEntry),
      List.Perm (bucketTs (bucketAdd k v b)) (v.1 :: bucketTs b)
  | [], k, v => by simp [bucketTs, bucketAdd]
  | (m, vs) :: rest, k, v => by
      unfold bucketAdd
      by_cases hm : m = k
      · rw [if_pos hm]
        have heq : bucketTs ((m, vs ++ [v]) :: rest) =
            (vs.map Prod.fst ++ [v.1]) ++ bucketTs rest := by
          simp [bucketTs]
        rw [heq]
        exact (List.perm_append_singleton _ _).append_right _
      · rw [if_neg hm]
        have h1 := bucketTs_bucketAdd rest k v
        have heq : bucketTs ((m, vs) :: bucketAdd k v rest) =
            vs.map Prod.fst ++ bucketTs (bucketAdd k v rest) := by
          simp [bucketTs]
        rw [heq]
        exact ((h1.append_left (vs.map Prod.fst)).trans List.perm_middle)

theorem bucketTs_groupOcc_aux :
    ∀ (md : List (Nat × BEntry)) (b : List (Nat × List (Nat × BEntry))),
      List.Perm (bucketTs (md.foldl (fun b p => bucketAdd p.2.block_number p b) b))
        (bucketTs b ++ md.map Prod.fst)
  | [], b => by simp
  | p :: md, b => by
      simp only [List.foldl_cons]
      have h1 := bucketTs_groupOcc_aux md (bucketAdd p.2.block_number p b)
      have h2 := bucketTs_bucketAdd b p.2.block_number p
      exact h1.trans ((h2.append_right _).trans List.perm_middle.symm)

theorem bucketTs_groupOcc (md : List (Nat × BEntry)) :
    List.Perm (bucketTs (groupOcc md)) (md.map Prod.fst) := by
  have h := bucketTs_groupOcc_aux md []
  simpa [bucketTs] using h

theorem runContrib1_fst_mem :
    ∀ (bs : List (Nat × List (Nat × BEntry))) (x : RunKey × BEntry),
      x ∈ runContrib1 bs → x.1.1 ∈ bucketTs bs
  | [], x, h => by simp [runContrib1] at h
  | bkt :: bs, x, h => by
      unfold runContrib1 at h
      rw [List.filterMap_cons] at h
      cases hs : sortByKey Prod.fst bkt.2 with
      | nil =>
          rw [hs] at h
          exact List.mem_append_right _ (runContrib1_fst_mem bs x h)
      | cons p tl =>
          rw [hs] at h
          rcases List.mem_cons.mp h with h1 | h1
          · subst h1
            have hp : p ∈ bkt.2 := (mem_sortByKey Prod.fst bkt.2 p).mp
              (by rw [hs]; exact List.mem_cons_self p tl)
            exact List.mem_append_left _ (List.mem_map.mpr ⟨p, hp, rfl⟩)
          · exact List.mem_append_right _ (runContrib1_fst_mem bs x h1)

theorem runContrib2_fst_mem :
    ∀ (bs : List (Nat × List (Nat × BEntry))) (x : RunKey × BEntry),
      x ∈ runContrib2 bs → x.1.1 ∈ bucketTs bs
  | [], x, h => by simp [runContrib2] at h
  | bkt :: bs, x, h => by
      unfold runContrib2 at h
      rw [List.filterMap_cons] at h
      cases hs : sortByKey Prod.fst bkt.2 with
      | nil =>
          rw [hs] at h
          exact List.mem_append_right _ (runContrib2_fst_mem bs x h)
      | cons p tl =>
          cases tl with
          | nil =>
              rw [hs] at h
              rcases List.mem_cons.mp h with h1 | h1
              · subst h1
                have hp : p ∈ bkt.2 := (mem_sortByKey Prod.fst bkt.2 p).mp
                  (by rw [hs]; exact List.mem_cons_self p [])
                exact List.mem_append_left _ (List.mem_map.mpr ⟨p, hp, rfl⟩)
              · exact List.mem_append_right _ (runContrib2_fst_mem bs x h1)
          | cons q tl2 =>
              rw [hs] at h
              rcases List.mem_cons.mp h with h1 | h1
              · subst h1
                have hq : q ∈ bkt.2 := (mem_sortByKey Prod.fst bkt.2 q).mp
                  (by rw [hs]; exact List.mem_cons_of_mem p (List.mem_cons_self q tl2))
                exact List.mem_append_left _ (List.mem_map.mpr ⟨q, hq, rfl⟩)
              · exact List.mem_append_right _ (runContrib2_fst_mem bs x h1)

theorem runContrib1_keys_nodup :
    ∀ bs : List (Nat × List (Nat × BEntry)),
      (bucketTs bs).Nodup → ((runContrib1 bs).map Prod.fst).Nodup
  | [], _ => by simp [runContrib1]
  | bkt :: bs, hnd => by
      have hnd' : (bkt.2.map Prod.fst ++ bucketTs bs).Nodup := hnd
      rcases List.nodup_append.mp hnd' with ⟨h1, h2, hdisj⟩
      unfold runContrib1
      rw [List.filterMap_cons]
      cases hs : sortByKey Prod.fst bkt.2 with
      | nil => exact runContrib1_keys_nodup bs h2
      | cons p tl =>
          rw [List.map_cons]
          refine List.nodup_cons.mpr ⟨?_, runContrib1_keys_nodup bs h2⟩
          intro hmem
          obtain ⟨x, hx, hxe⟩ := List.mem_map.mp hmem
          have hts : x.1.1 ∈ bucketTs bs := runContrib1_fst_mem bs x hx
          have hp : p ∈ bkt.2 := (mem_sortByKey Prod.fst bkt.2 p).mp
            (by rw [hs]; exact List.mem_cons_self p tl)
          have hpts : p.1 ∈ bkt.2.map Prod.fst := List.mem_map.mpr ⟨p, hp, rfl⟩
          have hx11 : x.1.1 = p.1 := congrArg Prod.fst hxe
          rw [hx11] at hts
          exact hdisj hpts hts

theorem runContrib2_keys_nodup :
    ∀ bs : List (Nat × List (Nat × BEntry)),
      (bucketTs bs).Nodup → ((runContrib2 bs).map Prod.fst).Nodup
  | [], _ => by simp [runContrib2]
  | bkt :: bs, hnd => by
      have hnd' : (bkt.2.map Prod.fst ++ bucketTs bs).Nodup := hnd
      rcases List.nodup_append.mp hnd' with ⟨h1, h2, hdisj⟩
      unfold runContrib2
      rw [List.filterMap_cons]
      cases hs : sortByKey Prod.fst bkt.2 with
      | nil => exact runContrib2_keys_nodup bs h2
      | cons p tl =>
          cases tl with
          | nil =>
              rw [List.map_cons]
              refine List.nodup_cons.mpr ⟨?_, runContrib2_keys_nodup bs h2⟩
              intro hmem
              obtain ⟨x, hx, hxe⟩ := List.mem_map.mp hmem
              have hts : x.1.1 ∈ bucketTs bs := runContrib2_fst_mem bs x hx
              have hp : p ∈ bkt.2 := (mem_sortByKey Prod.fst bkt.2 p).mp
                (by rw [hs]; exact List.mem_cons_self p [])
              have hpts : p.1 ∈ bkt.2.map Prod.fst := List.mem_map.mpr ⟨p, hp, rfl⟩
              have hx11 : x.1.1 = p.1 := congrArg Prod.fst hxe
              rw [hx11] at hts
              exact hdisj hpts hts
          | cons q tl2 =>
              rw [List.map_cons]
              refine List.nodup_cons.mpr ⟨?_, runContrib2_keys_nodup bs h2⟩
              intro hmem
              obtain ⟨x, hx, hxe⟩ := List.mem_map.mp hmem
              have hts : x.1.1 ∈ bucketTs bs := runContrib2_fst_mem bs x hx
              have hq : q ∈ bkt.2 := (mem_sortByKey Prod.fst bkt.2 q).mp
                (by rw [hs]; exact List.mem_cons_of_mem p (List.mem_cons_self q tl2))
              have hqts : q.1 ∈ bkt.2.map Prod.fst := List.mem_map.mpr ⟨q, hq, rfl⟩
              have hx11 : x.1.1 = q.1 := congrArg Prod.fst hxe
              rw [hx11] at hts
              exact hdisj hqts hts

theorem lookupBucket_cons {α : Type} (k : Nat) (bkt : Nat × List α)
    (rest : List (Nat × List α)) :
    lookupBucket k (bkt :: rest) = if bkt.1 = k then bkt.2 else lookupBucket k rest := by
  obtain ⟨m, vs⟩ := bkt
  rfl

theorem pairsFor_cons (n : Nat) (x : RunKey × BEntry) (l : List (RunKey × BEntry)) :
    pairsFor n (x :: l) =
      if x.2.block_number = n then x :: pairsFor n l else pairsFor n l := by
  unfold pairsFor
  rw [List.filter_cons]
  by_cases h : x.2.block_number = n
  · rw [if_pos (by simp [h]), if_pos h]
  · rw [if_neg (by simp [h]), if_neg h]

theorem runContrib1_cons_nil (bkt : Nat × List (Nat × BEntry))
    (bs : List (Nat × List (Nat × BEntry)))
    (hs : sortByKey Prod.fst bkt.2 = []) :
    runContrib1 (bkt :: bs) = runContrib1 bs := by
  unfold runContrib1
  rw [List.filterMap_cons, hs]

theorem runContrib1_cons_cons (bkt : Nat × List (Nat × BEntry))
    (bs : List (Nat × List (Nat × BEntry))) (p : Nat × BEntry)
    (tl : List (Nat × BEntry)) (hs : sortByKey Prod.fst bkt.2 = p :: tl) :
    runContrib1 (bkt :: bs) = ((p.1, false), p.2) :: runContrib1 bs := by
  unfold runContrib1
  rw [List.filterMap_cons, hs]

theorem runContrib2_cons_nil (bkt : Nat × List (Nat × BEntry))
    (bs : List (Nat × List (Nat × BEntry)))
    (hs : sortByKey Prod.fst bkt.2 = []) :
    runContrib2 (bkt :: bs) = runContrib2 bs := by
  unfold runContrib2
  rw [List.filterMap_cons, hs]

theorem runContrib2_cons_single (bkt : Nat × List (Nat × BEntry))
    (bs : List (Nat × List (Nat × BEntry))) (p : Nat × BEntry)
    (hs : sortByKey Prod.fst bkt.2 = [p]) :
    runContrib2 (bkt :: bs) = ((p.1, true), p.2) :: runContrib2 bs := by
  unfold runContrib2
  rw [List.filterMap_cons, hs]

theorem runContrib2_cons_double (bkt : Nat × List (Nat × BEntry))
    (bs : List (Nat × List (Nat × BEntry))) (p q : Nat × BEntry)
    (tl2 : List (Nat × BEntry)) (hs : sortByKey Prod.fst bkt.2 = p :: q :: tl2) :
    runContrib2 (bkt :: bs) = ((q.1, false), q.2) :: runContrib2 bs := by
  unfold runContrib2
  rw [List.filterMap_cons, hs]

theorem pairsFor_contrib1_nil :
    ∀ (bs : List (Nat × List (Nat × BEntry))) (n : Nat),
      (∀ bkt ∈ bs, ∀ p ∈ bkt.2, p.2.block_number = bkt.1) →
      (∀ bkt ∈ bs, bkt.1 ≠ n) →
      pairsFor n (runContrib1 bs) = []
  | [], n, _, _ => by simp [runContrib1, pairsFor]
  | bkt :: bs, n, hinv, hne => by
      cases hs : sortByKey Prod.fst bkt.2 with
      | nil =>
          rw [runContrib1_cons_nil bkt bs hs]
          exact pairsFor_contrib1_nil bs n
            (fun b hb => hinv b (List.mem_cons_of_mem _ hb))
            (fun b hb => hne b (List.mem_cons_of_mem _ hb))
      | cons p tl =>
          rw [runContrib1_cons_cons bkt bs p tl hs]
          have hp : p ∈ bkt.2 := (mem_sortByKey Prod.fst bkt.2 p).mp
            (by rw [hs]; exact List.mem_cons_self p tl)
          have hblock : p.2.block_number = bkt.1 :=
            hinv bkt (List.mem_cons_self _ _) p hp
          rw [pairsFor_cons, if_neg (by rw [hblock]; exact hne bkt (List.mem_cons_self _ _))]
          exact pairsFor_contrib1_nil bs n
            (fun b hb => hinv b (List.mem_cons_of_mem _ hb))
            (fun b hb => hne b (List.mem_cons_of_mem _ hb))

theorem pairsFor_contrib2_nil :
    ∀ (bs : List (Nat × List (Nat × BEntry))) (n : Nat),
      (∀ bkt ∈ bs, ∀ p ∈ bkt.2, p.2.block_number = bkt.1) →
      (∀ bkt ∈ bs, bkt.1 ≠ n) →
      pairsFor n (runContrib2 bs) = []
  | [], n, _, _ => by simp [runContrib2, pairsFor]
  | bkt :: bs, n, hinv, hne => by
      cases hs : sortByKey Prod.fst bkt.2 with
      | nil =>
          rw [runContrib2_cons_nil bkt bs hs]
          exact pairsFor_contrib2_nil bs n
            (fun b hb => hinv b (List.mem_cons_of_mem _ hb))
            (fun b hb => hne b (List.mem_cons_of_mem _ hb))
      | cons p tl =>
          cases tl with
          | nil =>
              rw [runContrib2_cons_single bkt bs p hs]
              have hp : p ∈ bkt.2 := (mem_sortByKey Prod.fst bkt.2 p).mp
                (by rw [hs]; exact List.mem_cons_self p [])
              have hblock : p.2.block_number = bkt.1 :=
                hinv bkt (List.mem_cons_self _ _) p hp
              rw [pairsFor_cons,
                if_neg (by rw [hblock]; exact hne bkt (List.mem_cons_self _ _))]
              exact pairsFor_contrib2_nil bs n
                (fun b hb => hinv b (List.mem_cons_of_mem _ hb))
                (fun b hb => hne b (List.mem_cons_of_mem _ hb))
          | cons q tl2 =>
              rw [runContrib2_cons_double bkt bs p q tl2 hs]
              have hq : q ∈ bkt.2 := (mem_sortByKey Prod.fst bkt.2 q).mp
                (by rw [hs]; exact List.mem_cons_of_mem p (List.mem_cons_self q tl2))
              have hblock : q.2.block_number = bkt.1 :=
                hinv bkt (List.mem_cons_self _ _) q hq
              rw [pairsFor_cons,
                if_neg (by rw [hblock]; exact hne bkt (List.mem_cons_self _ _))]
              exact pairsFor_contrib2_nil bs n
                (fun b hb => hinv b (List.mem_cons_of_mem _ hb))
                (fun b hb => hne b (List.mem_cons_of_mem _ hb))

theorem pairsFor_contrib1 :
    ∀ (bs : List (Nat × List (Nat × BEntry))) (n : Nat),
      (∀ bkt ∈ bs, ∀ p ∈ bkt.2, p.2.block_number = bkt.1) →
      ((bs.map Prod.fst).Nodup) →
      pairsFor n (runContrib1 bs) =
        match sortByKey Prod.fst (lookupBucket n bs) with
        | [] => []
        | (ts, e) :: _ => [((ts, false), e)]
  | [], n, _, _ => by simp [runContrib1, pairsFor, lookupBucket, sortByKey]
  | bkt :: bs, n, hinv, hknd => by
      have hknd2 : (bkt.1 :: bs.map Prod.fst).Nodup := hknd
      rcases List.nodup_cons.mp hknd2 with ⟨hm_notin, hknd3⟩
      have hinv' : ∀ b ∈ bs, ∀ p ∈ b.2, p.2.block_number = b.1 :=
        fun b hb => hinv b (List.mem_cons_of_mem _ hb)
      rw [lookupBucket_cons]
      by_cases hb : bkt.1 = n
      · rw [if_pos hb]
        have hne : ∀ b ∈ bs, b.1 ≠ n :=
          fun b hb2 hbeq => hm_notin (by rw [hb]; exact List.mem_map.mpr ⟨b, hb2, hbeq⟩)
        cases hs : sortByKey Prod.fst bkt.2 with
        | nil =>
            rw [runContrib1_cons_nil bkt bs hs]
            exact pairsFor_contrib1_nil bs n hinv' hne
        | cons p tl =>
            rw [runContrib1_cons_cons bkt bs p tl hs]
            have hp : p ∈ bkt.2 := (mem_sortByKey Prod.fst bkt.2 p).mp
              (by rw [hs]; exact List.mem_cons_self p tl)
            have hblock : p.2.block_number = n :=
              (hinv bkt (List.mem_cons_self _ _) p hp).trans hb
            rw [pairsFor_cons, if_pos hblock, pairsFor_contrib1_nil bs n hinv' hne]
      · rw [if_neg hb]
        cases hs : sortByKey Prod.fst bkt.2 with
        | nil =>
            rw [runContrib1_cons_nil bkt bs hs]
            exact pairsFor_contrib1 bs n hinv' hknd3
        | cons p tl =>
            rw [runContrib1_cons_cons bkt bs p tl hs]
            have hp : p ∈ bkt.2 := (mem_sortByKey Prod.fst bkt.2 p).mp
              (by rw [hs]; exact List.mem_cons_self p tl)
            have hblock : p.2.block_number = bkt.1 :=
              hinv bkt (List.mem_cons_self _ _) p hp
            rw [pairsFor_cons, if_neg (by rw [hblock]; exact hb)]
            exact pairsFor_contrib1 bs n hinv' hknd3

theorem pairsFor_contrib2 :
    ∀ (bs : List (Nat × List (Nat × BEntry))) (n : Nat),
      (∀ bkt ∈ bs, ∀ p ∈ bkt.2, p.2.block_number = bkt.1) →
      ((bs.map Prod.fst).Nodup) →
      pairsFor n (runContrib2 bs) =
        match sortByKey Prod.fst (lookupBucket n bs) with
        | [] => []
        | [(ts, e)] => [((ts, true), e)]
        | _ :: (ts2, e2) :: _ => [((ts2, false), e2)]
  | [], n, _, _ => by simp [runContrib2, pairsFor, lookupBucket, sortByKey]
  | bkt :: bs, n, hinv, hknd => by
      have hknd2 : (bkt.1 :: bs.map Prod.fst).Nodup := hknd
      rcases List.nodup_cons.mp hknd2 with ⟨hm_notin, hknd3⟩
      have hinv' : ∀ b ∈ bs, ∀ p ∈ b.2, p.2.block_number = b.1 :=
        fun b hb => hinv b (List.mem_cons_of_mem _ hb)
      rw [lookupBucket_cons]
      by_cases hb : bkt.1 = n
      · rw [if_pos hb]
        have hne : ∀ b ∈ bs, b.1 ≠ n :=
          fun b hb2 hbeq => hm_notin (by rw [hb]; exact List.mem_map.mpr ⟨b, hb2, hbeq⟩)
        cases hs : sortByKey Prod.fst bkt.2 with
        | nil =>
            rw [runContrib2_cons_nil bkt bs hs]
            exact pairsFor_contrib2_nil bs n hinv' hne
        | cons p tl =>
            cases tl with
            | nil =>
                rw [runContrib2_cons_single bkt bs p hs]
                have hp : p ∈ bkt.2 := (mem_sortByKey Prod.fst bkt.2 p).mp
                  (by rw [hs]; exact List.mem_cons_self p [])
                have hblock : p.2.block_number = n :=
                  (hinv bkt (List.mem_cons_self _ _) p hp).trans hb
                rw [pairsFor_cons, if_pos hblock, pairsFor_contrib2_nil bs n hinv' hne]
            | cons q tl2 =>
                rw [runContrib2_cons_double bkt bs p q tl2 hs]
                have hq : q ∈ bkt.2 := (mem_sortByKey Prod.fst bkt.2 q).mp
                  (by rw [hs]; exact List.mem_cons_of_mem p (List.mem_cons_self q tl2))
                have hblock : q.2.block_number = n :=
                  (hinv bkt (List.mem_cons_self _ _) q hq).trans hb
                rw [pairsFor_cons, if_pos hblock, pairsFor_contrib2_nil bs n hinv' hne]
      · rw [if_neg hb]
        cases hs : sortByKey Prod.fst bkt.2 with
        | nil =>
            rw [runContrib2_cons_nil bkt bs hs]
            exact pairsFor_contrib2 bs n hinv' hknd3
        | cons p tl =>
            cases tl with
            | nil =>
                rw [runContrib2_cons_single bkt bs p hs]
                have hp : p ∈ bkt.2 := (mem_sortByKey Prod.fst bkt.2 p).mp
                  (by rw [hs]; exact List.mem_cons_self p [])
                have hblock : p.2.block_number = bkt.1 :=
                  hinv bkt (List.mem_cons_self _ _) p hp
                rw [pairsFor_cons, if_neg (by rw [hblock]; exact hb)]
                exact pairsFor_contrib2 bs n hinv' hknd3
            | cons q tl2 =>
                rw [runContrib2_cons_double bkt bs p q tl2 hs]
                have hq : q ∈ bkt.2 := (mem_sortByKey Prod.fst bkt.2 q).mp
                  (by rw [hs]; exact List.mem_cons_of_mem p (List.mem_cons_self q tl2))
                have hblock : q.2.block_number = bkt.1 :=
                  hinv bkt (List.mem_cons_self _ _) q hq
                rw [pairsFor_cons, if_neg (by rw [hblock]; exact hb)]
                exact pairsFor_contrib2 bs n hinv' hknd3

/-- Claim C4: on a correlated metadata dictionary with distinct timestamp
keys, for every block number the run-1 dictionary holds exactly the
earliest occurrence of that block (by timestamp), the run-2 dictionary
holds exactly the lone occurrence (dup-keyed, identical record) when there
is one and otherwise exactly the second-earliest occurrence, all further
occurrences are discarded, and every run-1 pair's timestamp is at most
every run-2 pair's timestamp for that block. -/
theorem claim4_theorem (md : List (Nat × BEntry))
    (hnd : (md.map Prod.fst).Nodup) (n : Nat) :
    pairsFor n (splitRuns md).1 =
      ((sortByKey Prod.fst (md.filter fun p => decide (p.2.block_number = n))).take 1).map
        (fun p => ((p.1, false), p.2)) ∧
    pairsFor n (splitRuns md).2 =
      (if (sortByKey Prod.fst
            (md.filter fun p => decide (p.2.block_number = n))).length = 1
       then (sortByKey Prod.fst (md.filter fun p => decide (p.2.block_number = n))).map
              (fun p => ((p.1, true), p.2))
       else (((sortByKey Prod.fst (md.filter fun p =>
              decide (p.2.block_number = n))).drop 1).take 1).map
              (fun p => ((p.1, false), p.2))) ∧
    (∀ p ∈ pairsFor n (splitRuns md).1, ∀ q ∈ pairsFor n (splitRuns md).2,
      p.1.1 ≤ q.1.1) := by
  have hinv := groupOcc_inv md
  have hknd := groupOcc_keys_nodup md
  have htsnd : (bucketTs (groupOcc md)).Nodup :=
    ((bucketTs_groupOcc md).nodup_iff).mpr hnd
  have hrun : splitRuns md =
      (runContrib1 (groupOcc md), runContrib2 (groupOcc md)) := by
    unfold splitRuns
    rw [foldl_splitStep]
    rw [foldl_splitStep1_eq _ [] (by simpa using runContrib1_keys_nodup _ htsnd)]
    rw [foldl_splitStep2_eq _ [] (by simpa using runContrib2_keys_nodup _ htsnd)]
    simp
  have h1 : pairsFor n (splitRuns md).1 =
      match sortByKey Prod.fst (md.filter fun p => decide (p.2.block_number = n)) with
      | [] => []
      | (ts, e) :: _ => [((ts, false), e)] := by
    rw [hrun]
    show pairsFor n (runContrib1 (groupOcc md)) = _
    rw [pairsFor_contrib1 _ n hinv hknd, lookupBucket_groupOcc]
  have h2 : pairsFor n (splitRuns md).2 =
      match sortByKey Prod.fst (md.filter fun p => decide (p.2.block_number = n)) with
      | [] => []
      | [(ts, e)] => [((ts, true), e)]
      | _ :: (ts2, e2) :: _ => [((ts2, false), e2)] := by
    rw [hrun]
    show pairsFor n (runContrib2 (groupOcc md)) = _
    rw [pairsFor_contrib2 _ n hinv hknd, lookupBucket_groupOcc]
  refine ⟨?_, ?_, ?_⟩
  · rw [h1]
    cases sortByKey Prod.fst (md.filter fun p => decide (p.2.block_number = n)) with
    | nil => rfl
    | cons p tl => rfl
  · rw [h2]
    cases sortByKey Prod.fst (md.filter fun p => decide (p.2.block_number = n)) with
    | nil => rfl
    | cons p tl =>
        cases tl with
        | nil => rfl
        | cons q tl2 =>
            have hne : (p :: q :: tl2).length ≠ 1 := by
              simp only [List.length_cons]
              omega
            rw [if_neg hne]
            rfl
  · intro p hp q hq
    rw [h1] at hp
    rw [h2] at hq
    cases hs : sortByKey Prod.fst (md.filter fun p => decide (p.2.block_number = n)) with
    | nil =>
        rw [hs] at hp
        cases hp
    | cons a tl =>
        rw [hs] at hp hq
        have hp2 : p = ((a.1, false), a.2) := by simpa using hp
        cases tl with
        | nil =>
            have hq2 : q = ((a.1, true), a.2) := by simpa using hq
            rw [hp2, hq2]
        | cons b tl2 =>
            have hq2 : q = ((b.1, false), b.2) := by simpa using hq
            have hch := chain'_sortByKey Prod.fst
              (md.filter fun p => decide (p.2.block_number = n))
            rw [hs] at hch
            have hab : a.1 ≤ b.1 := (List.chain'_cons.mp hch).1
            rw [hp2, hq2]
            exact hab

/-- A correlated dictionary holding block 100 at timestamps 0 and 60 s and
block 200 once at 5 s, with distinct keys. -/
def c4Md : List (Nat × BEntry) :=
  [(0, ⟨0, 1, 1, 100, none, none⟩),
   (5000000, ⟨5000000, 2, 2, 200, none, none⟩),
   (60000000, ⟨60000000, 3, 3, 100, none, none⟩)]

/-- Concrete instance of C4 at block 100 of `c4Md`. -/
theorem claim4_witness :
    pairsFor 100 (splitRuns c4Md).1 =
      ((sortByKey Prod.fst (c4Md.filter fun p => decide (p.2.block_number = 100))).take 1).map
        (fun p => ((p.1, false), p.2)) ∧
    pairsFor 100 (splitRuns c4Md).2 =
      (if (sortByKey Prod.fst
            (c4Md.filter fun p => decide (p.2.block_number = 100))).length = 1
       then (sortByKey Prod.fst (c4Md.filter fun p => decide (p.2.block_number = 100))).map
              (fun p => ((p.1, true), p.2))
       else (((sortByKey Prod.fst (c4Md.filter fun p =>
              decide (p.2.block_number = 100))).drop 1).take 1).map
              (fun p => ((p.1, false), p.2))) ∧
    (∀ p ∈ pairsFor 100 (splitRuns c4Md).1, ∀ q ∈ pairsFor 100 (splitRuns c4Md).2,
      p.1.1 ≤ q.1.1) :=
  claim4_theorem c4Md (by decide) 100

end RethProofMetrics
